import Mathlib

/-!
Shallow embedding of the derived-state core of `src/server.py` of the
estate-tools backend: the normalization layer (`normalize_goal`,
`normalize_sales`), goal persistence (`save_goal_for_year`,
`save_goal_for_month`), the progress aggregation engine
(`build_monthly_progress`, `build_yearly_progress`), the record-lock
manager (`check_lock_available`), and the case-number sequencer
(`generate_case_number_for_date`, `reassign_case_numbers`).

Modelling conventions:
* Python runtime values are modelled by `PyVal`; Python dicts are
  association lists in insertion order (dict keys restricted to strings,
  which is all the JSON payloads carry).  Python floats are modelled by
  `Rat`; string-to-number parsing accepts optional surrounding whitespace,
  an optional sign and decimal digits (the exotic float spellings
  `nan`/`inf`/exponents/underscores are not modelled).
* Code that can raise an uncaught exception is embedded in
  `Except PyErr`; exceptions the source catches (`int()` / `float()`
  conversions guarded by `try/except (TypeError, ValueError)`) are
  modelled by `Option`-returning conversions.
-/

namespace Estate

/-- Python runtime values as observed by the normalization layer. -/
inductive PyVal : Type where
  | none : PyVal
  | bool (b : Bool) : PyVal
  | int (n : Int) : PyVal
  | float (q : Rat) : PyVal
  | str (s : String) : PyVal
  | list (xs : List PyVal) : PyVal
  | dict (entries : List (String × PyVal)) : PyVal

/-- Uncaught Python exceptions reachable in the embedded code. -/
inductive PyErr : Type where
  | typeError : PyErr
  | valueError : PyErr
  | attributeError : PyErr
deriving DecidableEq

/-- Python truthiness (`bool(v)`). -/
def pyTruthy : PyVal → Bool
  | .none => false
  | .bool b => b
  | .int n => if n = 0 then false else true
  | .float q => if q = 0 then false else true
  | .str s => if s = "" then false else true
  | .list [] => false
  | .list (_ :: _) => true
  | .dict [] => false
  | .dict (_ :: _) => true

/-- `v or dflt` in Python. -/
def pyOrElse (v dflt : PyVal) : PyVal := if pyTruthy v then v else dflt

/-- Python dict assignment `d[k] = v`: replaces the value at the first
occurrence of `k`, keeping its position, else appends at the end. -/
def dictSet : List (String × PyVal) → String → PyVal → List (String × PyVal)
  | [], k, v => [(k, v)]
  | (k', v') :: t, k, v => if k' = k then (k, v) :: t else (k', v') :: dictSet t k v

/-- Python dict lookup `d.get(k)` (first occurrence in the model). -/
def dictGet : List (String × PyVal) → String → Option PyVal
  | [], _ => Option.none
  | (k', v) :: t, k => if k' = k then some v else dictGet t k

/-- Last occurrence of a key: the value that survives `dict.update` when
the model list carries a duplicate key. -/
def dictLast : List (String × PyVal) → String → Option PyVal
  | [], _ => Option.none
  | (k', v) :: t, k => match dictLast t k with
      | some w => some w
      | Option.none => if k' = k then some v else Option.none

/-- `base.update(d)` on Python dicts: existing keys are overwritten in
place, new keys are appended in iteration order. -/
def pyUpdate (base d : List (String × PyVal)) : List (String × PyVal) :=
  d.foldl (fun acc kv => dictSet acc kv.1 kv.2) base

/-- `d.get(k)` with Python's `None` for a missing key. -/
def obs (n : List (String × PyVal)) (k : String) : PyVal := (dictGet n k).getD .none

/-- Whitespace as stripped by Python's `str.strip()`. -/
def pyIsSpace (c : Char) : Bool :=
  c = ' ' || c = '\t' || c = '\n' || c = '\r' || c = '\x0b' || c = '\x0c'

/-- Strip leading and trailing whitespace from a character list. -/
def stripChars (l : List Char) : List Char :=
  ((l.dropWhile pyIsSpace).reverse.dropWhile pyIsSpace).reverse

/-- Python `str.strip()`. -/
def pyStrip (s : String) : String := (stripChars s.toList).asString

/-- Value of a list of decimal digits. -/
def digitsVal (l : List Char) : Nat := l.foldl (fun a c => a * 10 + (c.toNat - 48)) 0

/-- Python `int(s)` on a string: optional whitespace, optional sign,
decimal digits; `Option.none` models the `ValueError`. -/
def pyIntOfStr (s : String) : Option Int :=
  match stripChars s.toList with
  | '-' :: rest =>
      if rest ≠ [] ∧ rest.all Char.isDigit then some (-(digitsVal rest : Int)) else Option.none
  | '+' :: rest =>
      if rest ≠ [] ∧ rest.all Char.isDigit then some (digitsVal rest : Int) else Option.none
  | rest =>
      if rest ≠ [] ∧ rest.all Char.isDigit then some (digitsVal rest : Int) else Option.none

/-- Truncation toward zero, as Python `int(float)`. -/
def ratTrunc (q : Rat) : Int := q.num.tdiv (q.den : Int)

/-- Python `int(v)`; `Option.none` models the `TypeError`/`ValueError`
that the callers catch. -/
def pyInt : PyVal → Option Int
  | .int n => some n
  | .bool b => some (if b then 1 else 0)
  | .float q => some (ratTrunc q)
  | .str s => pyIntOfStr s
  | _ => Option.none

/-- Python `float(s)` on a string: optional whitespace and sign, decimal
digits with at most one point and at least one digit. -/
def pyFloatOfStr (s : String) : Option Rat :=
  let l := stripChars s.toList
  let signed : Rat × List Char :=
    match l with
    | '-' :: t => (-1, t)
    | '+' :: t => (1, t)
    | t => (1, t)
  match (signed.2.takeWhile (fun c => c ≠ '.'), signed.2.dropWhile (fun c => c ≠ '.')) with
  | (ip, []) =>
      if ip ≠ [] ∧ ip.all Char.isDigit then some (signed.1 * (digitsVal ip : Rat)) else Option.none
  | (ip, '.' :: fp) =>
      if (ip ≠ [] ∨ fp ≠ []) ∧ ip.all Char.isDigit ∧ fp.all Char.isDigit then
        some (signed.1 * ((digitsVal ip : Rat) + (digitsVal fp : Rat) / (10 : Rat) ^ fp.length))
      else Option.none
  | (_, _ :: _) => Option.none

/-- Python `float(v)`; `Option.none` models `TypeError`/`ValueError`. -/
def pyFloat : PyVal → Option Rat
  | .float q => some q
  | .int n => some (n : Rat)
  | .bool b => some (if b then 1 else 0)
  | .str s => pyFloatOfStr s
  | _ => Option.none

/-- Python iteration `for x in v`: lists yield their elements, strings
their characters, dicts their keys; other values raise `TypeError`. -/
def pyIterate : PyVal → Option (List PyVal)
  | .list xs => some xs
  | .str s => some (s.toList.map (fun c => .str (String.singleton c)))
  | .dict d => some (d.map (fun kv => .str kv.1))
  | _ => Option.none

/-- Numeric value of an int/float/bool `PyVal` (0 for the rest). -/
def pyNumVal : PyVal → Rat
  | .int n => (n : Rat)
  | .float q => q
  | .bool b => if b then 1 else 0
  | _ => 0

/-- Python `+` restricted to the int/float values the sales code sums:
int + int stays int, anything else becomes float. -/
def pyAdd (a b : PyVal) : PyVal :=
  match a, b with
  | .int m, .int n => .int (m + n)
  | a, b => .float (pyNumVal a + pyNumVal b)

/-- Python `sum(vals)` starting from the int `0`. -/
def pySum (vals : List PyVal) : PyVal := vals.foldl pyAdd (.int 0)

/-! ### `normalize_goal` (src/server.py:270-294) -/

/-- The literal `{"storeTarget": 0, "staffTargets": {}, "includeStaff": []}`. -/
def goalBase : List (String × PyVal) :=
  [("storeTarget", .int 0), ("staffTargets", .dict []), ("includeStaff", .list [])]

/-- `normalized.update(goal)` when the input is a dict. -/
def goalNorm0 (goal : PyVal) : List (String × PyVal) :=
  match goal with
  | .dict d => pyUpdate goalBase d
  | _ => goalBase

/-- `max(0, int(normalized.get("storeTarget") or 0))`, with the caught
`TypeError`/`ValueError` degrading to 0. -/
def goalStoreVal (n : List (String × PyVal)) : Int :=
  match pyInt (pyOrElse (obs n "storeTarget") (.int 0)) with
  | some v => max 0 v
  | Option.none => 0

/-- The `staffTargets` cleaning loop: keep entries whose value converts
with `int`, clamped at 0; conversion failures are dropped. -/
def cleanStaffTargets (entries : List (String × PyVal)) : List (String × PyVal) :=
  entries.foldl (fun acc kv =>
    match pyInt kv.2 with
    | some n => dictSet acc kv.1 (.int (max 0 n))
    | Option.none => acc) []

/-- The `includeStaff` cleaning loop: keep the stripped form of the
non-empty strings. -/
def cleanIncludeStaff (items : List PyVal) : List PyVal :=
  items.foldl (fun acc v =>
    match v with
    | .str s => if pyStrip s = "" then acc else acc ++ [.str (pyStrip s)]
    | _ => acc) []

/-- `normalize_goal` (src/server.py:270-294).  The two uncaught exits are
`(... or {}).items()` on a truthy non-dict `staffTargets`
(`AttributeError`) and `for name in ...` over a truthy non-iterable
`includeStaff` (`TypeError`). -/
def normalizeGoal (goal : PyVal) : Except PyErr PyVal :=
  let n0 := goalNorm0 goal
  let n1 := dictSet n0 "storeTarget" (.int (goalStoreVal n0))
  match pyOrElse (obs n1 "staffTargets") (.dict []) with
  | .dict entries =>
    let n2 := dictSet n1 "staffTargets" (.dict (cleanStaffTargets entries))
    match pyIterate (pyOrElse (obs n2 "includeStaff") (.list [])) with
    | some items => .ok (.dict (dictSet n2 "includeStaff" (.list (cleanIncludeStaff items))))
    | Option.none => .error .typeError
  | _ => .error .attributeError

/-! ### `normalize_sales` (src/server.py:330-351) -/

/-- The literal `{"store": 0, "staff": {}}`. -/
def salesBase : List (String × PyVal) := [("store", .int 0), ("staff", .dict [])]

/-- The `staff` cleaning loop of `normalize_sales`: keep entries whose
value converts with `float`; `max(0, float(val))` returns the int `0`
when the float is not positive. -/
def cleanSalesStaff (entries : List (String × PyVal)) : List (String × PyVal) :=
  entries.foldl (fun acc kv =>
    match pyFloat kv.2 with
    | some q => dictSet acc kv.1 (if 0 < q then .float q else .int 0)
    | Option.none => acc) []

/-- `normalize_sales` (src/server.py:330-351).  The uncaught exit is
`(rec.get("staff") or {}).items()` on a truthy non-dict `staff`. -/
def normalizeSales (rec : PyVal) : Except PyErr PyVal :=
  match rec with
  | .dict d =>
    match pyOrElse (obs d "staff") (.dict []) with
    | .dict entries =>
      let staff := cleanSalesStaff entries
      let store1 : PyVal :=
        match pyFloat (obs d "store") with
        | some q => .float (if q < 0 then 0 else q)
        | Option.none => pySum (staff.map (fun kv => kv.2))
      let store2 : PyVal :=
        if pyNumVal store1 = 0 ∧ staff.isEmpty = false then
          pySum (staff.map (fun kv => kv.2))
        else store1
      .ok (.dict [("store", store2), ("staff", .dict staff)])
    | _ => .error .attributeError
  | _ => .ok (.dict salesBase)

/-! ### Strings, ordering and stable sorting

Python compares strings lexicographically by code point and `sorted` is a
stable sort; the model uses a structural lexicographic comparison and a
stable insertion sort (extensionally equal to any stable sort for the
total preorder comparators used here). -/

/-- Lexicographic strict comparison of character lists (Python `<` on
strings). -/
def charListLT : List Char → List Char → Bool
  | [], [] => false
  | [], _ :: _ => true
  | _ :: _, [] => false
  | a :: as, b :: bs => if a < b then true else if b < a then false else charListLT as bs

/-- Python `a < b` on strings. -/
def strLT (a b : String) : Bool := charListLT a.toList b.toList

/-- Python `a <= b` on strings. -/
def strLE (a b : String) : Bool := ! strLT b a

/-- Insert an element into a sorted list, before the first element it
compares `le` to (so that, combined with `sortS`, earlier elements stay
before tied later ones: stability). -/
def insertS {α : Type} (le : α → α → Bool) (x : α) : List α → List α
  | [] => [x]
  | y :: t => if le x y then x :: y :: t else y :: insertS le x t

/-- Stable insertion sort, the model of Python's stable `sorted`/`sort`. -/
def sortS {α : Type} (le : α → α → Bool) (l : List α) : List α :=
  l.foldr (insertS le) []

/-! ### Dates and month keys (src/server.py:395-402) -/

/-- Decimal digits of a natural number, most significant first
(fuel-structured so that the kernel can evaluate it; `fuel ≥ n`
suffices). -/
def natDigitsGo : Nat → Nat → List Char → List Char
  | 0, _, acc => acc
  | fuel + 1, n, acc =>
      if n = 0 then acc else natDigitsGo fuel (n / 10) (Nat.digitChar (n % 10) :: acc)

/-- Decimal digits of a natural number (`["0"]` for zero). -/
def natDigits (n : Nat) : List Char := if n = 0 then ['0'] else natDigitsGo n n []

/-- Python `f"{n:0wd}"` for a natural number: decimal digits left-padded
with zeros to width `w`. -/
def padNum (w n : Nat) : String :=
  (List.replicate (w - (natDigits n).length) '0' ++ natDigits n).asString

/-- Days in a month, with Gregorian leap years, as validated by
`datetime.strptime(date_str, "%Y-%m-%d")`. -/
def daysInMonth (y m : Nat) : Nat :=
  if m = 2 then
    (if y % 4 = 0 ∧ (y % 100 ≠ 0 ∨ y % 400 = 0) then 29 else 28)
  else if m = 4 ∨ m = 6 ∨ m = 9 ∨ m = 11 then 30
  else 31

/-- Split a character list at the separators `'-'` (worker, accumulating
the current field reversed). -/
def splitDashAux : List Char → List Char → List (List Char)
  | [], cur => [cur.reverse]
  | c :: t, cur =>
      if c = '-' then cur.reverse :: splitDashAux t [] else splitDashAux t (c :: cur)

/-- `s.split("-")` on a character list. -/
def splitDash (l : List Char) : List (List Char) := splitDashAux l []

/-- A field of `%Y`/`%m`/`%d`: 1 to `w` decimal digits. -/
def dateField (w : Nat) (l : List Char) : Option Nat :=
  if l ≠ [] ∧ l.length ≤ w ∧ l.all Char.isDigit then some (digitsVal l) else Option.none

/-- `datetime.strptime(s, "%Y-%m-%d")`: year of 1-4 digits (at least 1),
month 1-12 of 1-2 digits, and a day valid for that month. -/
def parseYMD (s : String) : Option (Nat × Nat × Nat) :=
  match splitDash s.toList with
  | [ys, ms, ds] =>
    match dateField 4 ys, dateField 2 ms, dateField 2 ds with
    | some y, some m, some d =>
      if 1 ≤ y ∧ 1 ≤ m ∧ m ≤ 12 ∧ 1 ≤ d ∧ d ≤ daysInMonth y m then some (y, m, d)
      else Option.none
    | _, _, _ => Option.none
  | _ => Option.none

/-- `month_key_from_date` (src/server.py:395-402): `"YYYY-MM"` of a
parsable date string, `Option.none` for falsy or unparsable input. -/
def monthKeyFromDate (s : String) : Option String :=
  if s = "" then Option.none
  else
    match parseYMD s with
    | some (y, m, _) => some (padNum 4 y ++ "-" ++ padNum 2 m)
    | Option.none => Option.none

/-! ### Progress aggregation (src/server.py:1003-1039)

Contract records as produced by `db_row_to_contract`: the fields the
aggregation reads are strings (`""` for NULL), except the cancellation
info which may be a JSON object. -/

/-- The `"中止理由"` (cancel reason) field: either not a dict (absent,
or a plain text reason), or a dict whose `"中止日"` (cancel date) entry
is modelled by its string value (`""` when the key is missing, which
behaves identically to an unparsable date). -/
inductive CancelReason : Type where
  | other (s : String) : CancelReason
  | info (cancelDate : String) : CancelReason
deriving DecidableEq

/-- A contract record, restricted to the fields `build_monthly_progress`
reads: `担当` (staff), `新規媒介締結日` (mediation start date),
`ステータス日付` (status date), `取引状況` (deal status), `中止理由`
(cancel reason). -/
structure Contract : Type where
  staff : String
  mediationStartDate : String
  statusDate : String
  dealStatus : String
  cancelReason : CancelReason
deriving DecidableEq

/-- Per-staff counters inside a month entry. -/
structure StaffCnt : Type where
  signed : Int
  canceled : Int
  net : Int
deriving DecidableEq

/-- A month entry `{"signed": 0, "canceled": 0, "net": 0, "staff": {}}`. -/
structure Progress : Type where
  signed : Int
  canceled : Int
  net : Int
  staff : List (String × StaffCnt)
deriving DecidableEq

def zeroStaffCnt : StaffCnt := ⟨0, 0, 0⟩

def zeroProgress : Progress := ⟨0, 0, 0, []⟩

/-- `contract.get("担当") or "未設定"`: the staff key with the
"unassigned" sentinel. -/
def staffKeyOf (c : Contract) : String := if c.staff = "" then "未設定" else c.staff

/-- `month_key_from_date(contract.get("新規媒介締結日") or contract.get("ステータス日付"))`. -/
def signedMonthOf (c : Contract) : Option String :=
  monthKeyFromDate (if c.mediationStartDate = "" then c.statusDate else c.mediationStartDate)

/-- The canceled month: the month of the cancel date inside a dict
`中止理由`, else — if `取引状況 == "中止"` — the month of the status
date. -/
def cancelMonthOf (c : Contract) : Option String :=
  let fromInfo : Option String :=
    match c.cancelReason with
    | .info d => monthKeyFromDate d
    | .other _ => Option.none
  match fromInfo with
  | some mk => some mk
  | Option.none =>
    if c.dealStatus = "中止" then monthKeyFromDate c.statusDate else Option.none

/-- `entry["staff"].setdefault(staff, zeros)` followed by an in-place
mutation `f` of that staff entry. -/
def bumpStaff (f : StaffCnt → StaffCnt) (name : String) :
    List (String × StaffCnt) → List (String × StaffCnt)
  | [] => [(name, f zeroStaffCnt)]
  | (n, sc) :: t => if n = name then (n, f sc) :: t else (n, sc) :: bumpStaff f name t

/-- The signed-event mutation of a month entry. -/
def bumpSigned (name : String) (p : Progress) : Progress :=
  { p with
    signed := p.signed + 1
    net := p.net + 1
    staff := bumpStaff (fun s => { s with signed := s.signed + 1, net := s.net + 1 }) name p.staff }

/-- The canceled-event mutation of a month entry. -/
def bumpCanceled (name : String) (p : Progress) : Progress :=
  { p with
    canceled := p.canceled + 1
    net := p.net - 1
    staff :=
      bumpStaff (fun s => { s with canceled := s.canceled + 1, net := s.net - 1 }) name p.staff }

/-- `monthly.setdefault(month_key, zeros)` followed by an in-place
mutation `f` of that month entry. -/
def monthUpsert (mk : String) (f : Progress → Progress) :
    List (String × Progress) → List (String × Progress)
  | [] => [(mk, f zeroProgress)]
  | (k, p) :: t => if k = mk then (k, f p) :: t else (k, p) :: monthUpsert mk f t

/-- The body of the `for contract in load_all_contracts()` loop. -/
def applyContract (m : List (String × Progress)) (c : Contract) : List (String × Progress) :=
  let m1 :=
    match signedMonthOf c with
    | some mk => monthUpsert mk (bumpSigned (staffKeyOf c)) m
    | Option.none => m
  match cancelMonthOf c with
  | some mk => monthUpsert mk (bumpCanceled (staffKeyOf c)) m1
  | Option.none => m1

/-- `build_monthly_progress` (src/server.py:1003-1039), as a function of
the contract records the excluded persistence layer would return. -/
def buildMonthlyProgress (contracts : List Contract) : List (String × Progress) :=
  contracts.foldl applyContract []

/-! ### Goals document and `build_yearly_progress` (src/server.py:297-327, 1042-1105)

`load_goals_data` passes every stored goal through `normalize_goal`, so
the goals document `build_yearly_progress` receives is modelled in
normalized, structured form.  A normalized goal dict always has its three
keys and is therefore always truthy, so the `or` / `if found:` fallbacks
on goals reduce to presence tests. -/

/-- A normalized Goal. -/
structure Goal : Type where
  storeTarget : Int
  staffTargets : List (String × Int)
  includeStaff : List String
deriving DecidableEq

/-- `DEFAULT_GOAL` (src/server.py:30). -/
def zeroGoal : Goal := ⟨0, [], []⟩

/-- The goals document `{"default": ..., "monthly": {...}, "annual": {...}}`. -/
structure GoalsDoc : Type where
  defaultGoal : Goal
  monthly : List (String × Goal)
  annual : List (String × Goal)
deriving DecidableEq

/-- Association-list lookup (first occurrence), for dicts with
structured values. -/
def alookup {α : Type} : List (String × α) → String → Option α
  | [], _ => Option.none
  | (k, v) :: t, key => if k = key then some v else alookup t key

/-- `get_goal_for_month` (src/server.py:297-299):
`goals.get("monthly", {}).get(month_key) or goals.get("default") or DEFAULT_GOAL`. -/
def getGoalForMonth (goals : GoalsDoc) (mk : String) : Goal :=
  (alookup goals.monthly mk).getD goals.defaultGoal

/-- `get_goal_for_year` with `fallback_to_default=False`
(src/server.py:310-317): the annual entry when present, else nothing. -/
def getGoalForYearNoFallback (goals : GoalsDoc) (yk : String) : Option Goal :=
  alookup goals.annual yk

/-- A year entry of `build_yearly_progress`. -/
structure YearEntry : Type where
  months : List String
  goal : Goal
  monthlyTargetTotal : Int
  progress : Progress
deriving DecidableEq

def freshYearEntry : YearEntry := ⟨[], zeroGoal, 0, zeroProgress⟩

/-- `yearly.setdefault(year, fresh)` followed by in-place mutation `f`. -/
def yearUpsert (y : String) (f : YearEntry → YearEntry) :
    List (String × YearEntry) → List (String × YearEntry)
  | [] => [(y, f freshYearEntry)]
  | (k, e) :: t => if k = y then (k, f e) :: t else (k, e) :: yearUpsert y f t

/-- `staff_entry = setdefault(name, zeros)` plus the three `+=` lines of
the year-progress merge. -/
def staffAdd (name : String) (sd : StaffCnt) :
    List (String × StaffCnt) → List (String × StaffCnt)
  | [] => [(name, ⟨sd.signed, sd.canceled, sd.net⟩)]
  | (n, c) :: t =>
      if n = name then (n, ⟨c.signed + sd.signed, c.canceled + sd.canceled, c.net + sd.net⟩) :: t
      else (n, c) :: staffAdd name sd t

/-- The `for name, staff_data in month_progress.staff.items()` merge loop. -/
def mergeStaff (acc ms : List (String × StaffCnt)) : List (String × StaffCnt) :=
  ms.foldl (fun a kv => staffAdd kv.1 kv.2 a) acc

/-- The month-progress additions into a year's progress entry. -/
def addProgress (e p : Progress) : Progress :=
  ⟨e.signed + p.signed, e.canceled + p.canceled, e.net + p.net, mergeStaff e.staff p.staff⟩

/-- `entry["goal"]["staffTargets"][name] = get(name, 0) + target`. -/
def targetAdd (name : String) (t : Int) : List (String × Int) → List (String × Int)
  | [] => [(name, t)]
  | (n, v) :: tl => if n = name then (n, v + t) :: tl else (n, v) :: targetAdd name t tl

/-- The `staffTargets` accumulation loop of the year-goal sum. -/
def addTargets (acc ms : List (String × Int)) : List (String × Int) :=
  ms.foldl (fun a kv => targetAdd kv.1 kv.2 a) acc

/-- Remove duplicates keeping first occurrences (worker carrying the keys
already seen). -/
def dedupKeysGo (seen : List String) : List String → List String
  | [] => []
  | k :: t => if k ∈ seen then dedupKeysGo seen t else k :: dedupKeysGo (k :: seen) t

/-- Remove duplicates keeping first occurrences (the model's fixed
iteration order for Python's `set` of month keys). -/
def dedupKeys (l : List String) : List String := dedupKeysGo [] l

/-- `sorted(set(old) | set(new))` on `includeStaff`. -/
def sortedUnion (a b : List String) : List String :=
  sortS strLE (dedupKeys (a ++ b))

/-- The per-month goal accumulation into a year entry's summed goal. -/
def goalAccum (g mg : Goal) : Goal :=
  { storeTarget := g.storeTarget + mg.storeTarget
    staffTargets := addTargets g.staffTargets mg.staffTargets
    includeStaff := sortedUnion g.includeStaff mg.includeStaff }

/-- `month_key.split("-", 1)[0]`. -/
def yearOf (mk : String) : String := (mk.toList.takeWhile (fun c => c ≠ '-')).asString

/-- The body of the `for month_key in all_month_keys` loop
(src/server.py:1057-1095). -/
def monthStep (mp : List (String × Progress)) (goals : GoalsDoc)
    (acc : List (String × YearEntry)) (mk : String) : List (String × YearEntry) :=
  if mk = "" ∨ ¬ mk.toList.contains '-' then acc
  else
    let mg := getGoalForMonth goals mk
    let mprog := (alookup mp mk).getD zeroProgress
    yearUpsert (yearOf mk)
      (fun e =>
        { months := if mk ∈ e.months then e.months else e.months ++ [mk]
          goal := goalAccum e.goal mg
          monthlyTargetTotal := e.monthlyTargetTotal + mg.storeTarget
          progress := addProgress e.progress mprog })
      acc

/-- The seeding loop over annual-goal year keys without a dash
(src/server.py:1045-1055). -/
def seedAnnual (annual : List (String × Goal)) : List (String × YearEntry) :=
  annual.foldl
    (fun acc kv =>
      if kv.1 ≠ "" ∧ ¬ kv.1.toList.contains '-' then
        (if (alookup acc kv.1).isSome then acc else acc ++ [(kv.1, freshYearEntry)])
      else acc)
    []

/-- The iteration list for `set(monthly_progress) | set(goals["monthly"])`.
Python iterates this set in unspecified order; the model fixes one; the
summed quantities the claims speak about are order-independent. -/
def allMonthKeys (mp : List (String × Progress)) (goals : GoalsDoc) : List String :=
  dedupKeys (mp.map (fun kv => kv.1) ++ goals.monthly.map (fun kv => kv.1))

/-- The final passes: `info["months"].sort()` and the annual-goal
override (src/server.py:1097-1103). -/
def finishYear (goals : GoalsDoc) (kv : String × YearEntry) : String × YearEntry :=
  let e := kv.2
  let e1 := { e with months := sortS strLE e.months }
  match getGoalForYearNoFallback goals kv.1 with
  | some g => (kv.1, { e1 with goal := g })
  | Option.none => (kv.1, e1)

/-- `build_yearly_progress` (src/server.py:1042-1105). -/
def buildYearlyProgress (mp : List (String × Progress)) (goals : GoalsDoc) :
    List (String × YearEntry) :=
  ((allMonthKeys mp goals).foldl (monthStep mp goals) (seedAnnual goals.annual)).map
    (finishYear goals)

/-! ### `save_goal_for_year` / `save_goal_for_month` (src/server.py:302-327)

The persistence around them is whole-document read/replace; the value
stored under the year (resp. month) key is the part the claims are
about. -/

/-- `normalized.get("staffTargets", {})` of a normalized goal dict. -/
def staffTargetsOf (v : PyVal) : List (String × PyVal) :=
  match v with
  | .dict l =>
    match dictGet l "staffTargets" with
    | some (.dict st) => st
    | _ => []
  | _ => []

/-- Python `sum` over the `staffTargets` values; `Option.none` models the
`TypeError` a non-int value would raise (unreachable for normalized
goals). -/
def pySumInts : List (String × PyVal) → Option Int
  | [] => some 0
  | (_, .int n) :: t =>
    match pySumInts t with
    | some s => some (n + s)
    | Option.none => Option.none
  | _ => Option.none

/-- The annual goal value persisted by `save_goal_for_year`
(src/server.py:320-327): the normalized body with `storeTarget`
overwritten by the sum of its `staffTargets` values. -/
def savedAnnualGoal (body : PyVal) : Except PyErr PyVal :=
  match normalizeGoal body with
  | .ok v =>
    match pySumInts (staffTargetsOf v) with
    | some s =>
      (match v with
       | .dict l => .ok (.dict (dictSet l "storeTarget" (.int s)))
       | _ => .ok v)
    | Option.none => .error .typeError
  | .error e => .error e

/-- The monthly goal value persisted by `save_goal_for_month`
(src/server.py:302-307): just the normalized body. -/
def savedMonthlyGoal (body : PyVal) : Except PyErr PyVal := normalizeGoal body

/-- `v.get("storeTarget")` read back numerically. -/
def storeTargetValOf (v : PyVal) : Int :=
  match v with
  | .dict l =>
    match dictGet l "storeTarget" with
    | some (.int n) => n
    | _ => 0
  | _ => 0

/-! ### Record locks (src/server.py:858-905)

Timestamps are naturals (seconds); `LOCK_DURATION_MINUTES = 2` gives an
expiry 120 seconds from `now`.  The lock table is a list of rows; the
`race` argument models a row committed by a concurrent winner between
this call's SELECT and its INSERT — the case in which the uniqueness
constraint on `(resource_type, resource_id)` rejects the INSERT with
`psycopg2.IntegrityError`. -/

structure Lock : Type where
  resourceType : String
  resourceId : String
  lockedBy : String
  lockedAt : Nat
  expiresAt : Nat
deriving DecidableEq

def lockDurationMinutes : Nat := 2

/-- `cleanup_expired_locks` (src/server.py:858-863):
`DELETE FROM record_locks WHERE expires_at < NOW()`. -/
def cleanupExpiredLocks (now : Nat) (s : List Lock) : List Lock :=
  s.filter (fun l => ¬ l.expiresAt < now)

/-- The SELECT for an existing lock on the key (first matching row). -/
def findLock (s : List Lock) (rt rid : String) : Option Lock :=
  (s.filter (fun l => l.resourceType = rt ∧ l.resourceId = rid)).head?

/-- The outcome of `check_lock_available`: `granted` is the
`(True, {...})` return, `denied` the `(False, {...})` returns, with
`Option.none` fields standing for the missing `locked_at` key and the
empty-string `expires_at` of the IntegrityError fallback dict. -/
inductive LockResult : Type where
  | granted (user : String) (lockedAt expiresAt : Nat) : LockResult
  | denied (user : String) (lockedAt expiresAt : Option Nat) : LockResult
deriving DecidableEq

/-- `check_lock_available` (src/server.py:866-905). -/
def checkLockAvailable (s : List Lock) (now : Nat) (rt rid user : String)
    (race : Option Lock) : LockResult × List Lock :=
  let s1 := cleanupExpiredLocks now s
  match findLock s1 rt rid with
  | some ex => (.denied ex.lockedBy (some ex.lockedAt) (some ex.expiresAt), s1)
  | Option.none =>
    let expiresAt := now + lockDurationMinutes * 60
    match race with
    | some w =>
      if w.resourceType = rt ∧ w.resourceId = rid then
        (.denied "unknown" Option.none Option.none, s1 ++ [w])
      else
        (.granted user now expiresAt, s1 ++ [w, ⟨rt, rid, user, now, expiresAt⟩])
    | Option.none => (.granted user now expiresAt, s1 ++ [⟨rt, rid, user, now, expiresAt⟩])

/-- The live (unexpired) leases of a state: `expires_at > now`. -/
def liveLocks (now : Nat) (s : List Lock) : List Lock :=
  s.filter (fun l => now < l.expiresAt)

/-! ### Case numbers (src/server.py:799-852)

Customer records as produced by `db_row_to_customer`: the fields the
sequencer reads are strings (`""` for NULL). -/

structure Customer : Type where
  id : String
  inquiryDate : String
  caseNumber : String
  createdAt : String
deriving DecidableEq

/-- `{"sell": "S", "buy": "B", "investment": "R"}.get(category, "X")`. -/
def categoryPfx (category : String) : String :=
  if category = "sell" then "S"
  else if category = "buy" then "B"
  else if category = "investment" then "R"
  else "X"

/-- `str(year)[-2:] if year >= 2000 else str(year)`. -/
def yearShort (year : Nat) : String :=
  if 2000 ≤ year then ((natDigits year).drop ((natDigits year).length - 2)).asString
  else (natDigits year).asString

/-- The Python stable sort key comparison for
`sorted(..., key=lambda c: c.get("inquiry_date") or "")`. -/
def dateLE (a b : Customer) : Bool := strLE a.inquiryDate b.inquiryDate

/-- The `seq` counting loop with its early `break`
(src/server.py:809-815). -/
def seqLoop (d : String) : Nat → List Customer → Nat
  | s, [] => s
  | s, c :: t => if strLE c.inquiryDate d then seqLoop d (s + 1) t else s

/-- `generate_case_number_for_date` (src/server.py:799-817). -/
def generateCaseNumberForDate (category : String) (year : Nat) (inquiryDate : String)
    (existing : List Customer) : String :=
  let sortedCustomers := sortS dateLE (existing.filter (fun c => c.inquiryDate ≠ ""))
  categoryPfx category ++ yearShort year ++ padNum 4 (seqLoop inquiryDate 1 sortedCustomers)

/-- `case_seq` (src/server.py:831-835): the trailing 4-digit suffix
extracted by `re.search(r"(\d{4})$", value)`, 9999 when absent. -/
def caseSeq (v : String) : Nat :=
  if v = "" then 9999
  else
    let l := v.toList
    if 4 ≤ l.length ∧ (l.drop (l.length - 4)).all Char.isDigit then
      digitsVal (l.drop (l.length - 4))
    else 9999

/-- `c.get("inquiry_date") or "9999-99-99"`, the first component of the
tuple sort key of `reassign_case_numbers`. -/
def reassignDate (c : Customer) : String :=
  if c.inquiryDate = "" then "9999-99-99" else c.inquiryDate

/-- Stable-sort comparison on the Python tuple key
`(inquiry_date or "9999-99-99", case_seq(case_number), case_number or "",
created_at or "")` (src/server.py:837-840), i.e. the lexicographic
tuple order. -/
def reassignKeyLE (a b : Customer) : Bool :=
  if strLT (reassignDate a) (reassignDate b) then true
  else if strLT (reassignDate b) (reassignDate a) then false
  else if caseSeq a.caseNumber < caseSeq b.caseNumber then true
  else if caseSeq b.caseNumber < caseSeq a.caseNumber then false
  else if strLT a.caseNumber b.caseNumber then true
  else if strLT b.caseNumber a.caseNumber then false
  else strLE a.createdAt b.createdAt

/-- The rewrite loop `for idx, customer in enumerate(sorted_customers, 1)`. -/
def numberFrom (pfxYs : String) : Nat → List Customer → List Customer
  | _, [] => []
  | k, c :: t => { c with caseNumber := pfxYs ++ padNum 4 k } :: numberFrom pfxYs (k + 1) t

/-- `reassign_case_numbers` (src/server.py:820-852), as the new
assignment of the partition's customer records. -/
def reassignCaseNumbers (category : String) (year : Nat) (customers : List Customer) :
    List Customer :=
  if customers.isEmpty then []
  else numberFrom (categoryPfx category ++ yearShort year) 1 (sortS reassignKeyLE customers)

/-! ## Generic lemmas: lexicographic string comparison -/

theorem charListLT_cons (x y : Char) (as bs : List Char) :
    charListLT (x :: as) (y :: bs) =
      if x < y then true else if y < x then false else charListLT as bs := rfl

theorem charListLT_trans :
    ∀ {a b c : List Char}, charListLT a b = true → charListLT b c = true →
      charListLT a c = true := by
  intro a
  induction a with
  | nil =>
    intro b c hab hbc
    cases b with
    | nil => exact absurd hab (by simp [charListLT])
    | cons y bs =>
      cases c with
      | nil => exact absurd hbc (by simp [charListLT])
      | cons z cs => simp [charListLT]
  | cons x as ih =>
    intro b c hab hbc
    cases b with
    | nil => exact absurd hab (by simp [charListLT])
    | cons y bs =>
      cases c with
      | nil => exact absurd hbc (by simp [charListLT])
      | cons z cs =>
        rw [charListLT_cons] at hab hbc ⊢
        rcases lt_trichotomy x y with hxy | hxy | hxy
        · rcases lt_trichotomy y z with hyz | hyz | hyz
          · rw [if_pos (lt_trans hxy hyz)]
          · subst hyz
            rw [if_pos hxy]
          · rw [if_neg (lt_asymm hyz), if_pos hyz] at hbc
            exact absurd hbc (by simp)
        · subst hxy
          rw [if_neg (lt_irrefl x), if_neg (lt_irrefl x)] at hab
          rcases lt_trichotomy x z with hxz | hxz | hxz
          · rw [if_pos hxz]
          · subst hxz
            rw [if_neg (lt_irrefl x), if_neg (lt_irrefl x)] at hbc ⊢
            exact ih hab hbc
          · rw [if_neg (lt_asymm hxz), if_pos hxz] at hbc
            exact absurd hbc (by simp)
        · rw [if_neg (lt_asymm hxy), if_pos hxy] at hab
          exact absurd hab (by simp)

theorem charListLT_connex :
    ∀ {a b : List Char}, charListLT a b = false → charListLT b a = false → a = b := by
  intro a
  induction a with
  | nil =>
    intro b hab _
    cases b with
    | nil => rfl
    | cons y bs => simp [charListLT] at hab
  | cons x as ih =>
    intro b hab hba
    cases b with
    | nil => simp [charListLT] at hba
    | cons y bs =>
      rw [charListLT_cons] at hab hba
      rcases lt_trichotomy x y with hxy | hxy | hxy
      · rw [if_pos hxy] at hab
        exact absurd hab (by simp)
      · subst hxy
        rw [if_neg (lt_irrefl x), if_neg (lt_irrefl x)] at hab hba
        exact congrArg (x :: ·) (ih hab hba)
      · rw [if_pos hxy] at hba
        exact absurd hba (by simp)

theorem charListLT_irrefl : ∀ {a : List Char}, charListLT a a = false := by
  intro a
  induction a with
  | nil => rfl
  | cons x as ih => simp [charListLT_cons, ih]

/-- Strings with equal character lists are equal. -/
theorem string_toList_inj {a b : String} (h : a.toList = b.toList) : a = b := by
  cases a
  cases b
  exact congrArg String.mk (by simpa [String.toList] using h)

theorem strLE_trans {a b c : String} (hab : strLE a b = true) (hbc : strLE b c = true) :
    strLE a c = true := by
  simp only [strLE, strLT, Bool.not_eq_true', String.toList] at hab hbc ⊢
  by_contra hca'
  have hca : charListLT c.data a.data = true := by
    simpa using hca'
  cases h2 : charListLT b.data c.data with
  | false =>
    have heq : b.data = c.data := charListLT_connex h2 hbc
    rw [← heq] at hca
    simp [hab] at hca
  | true =>
    have := charListLT_trans h2 hca
    simp [hab] at this

theorem strLE_total (a b : String) : strLE a b = true ∨ strLE b a = true := by
  simp only [strLE, Bool.not_eq_true']
  rcases h : strLT b a with _ | _
  · exact Or.inl rfl
  · rcases h2 : strLT a b with _ | _
    · exact Or.inr rfl
    · exfalso
      simp only [strLT] at h h2
      have := charListLT_trans h h2
      simp [charListLT_irrefl] at this

theorem strLE_of_not_strLE {a b : String} (h : strLE a b = false) : strLE b a = true := by
  rcases strLE_total a b with h' | h'
  · exact absurd h' (by simp [h])
  · exact h'

/-! ## Generic lemmas: the stable sort `sortS` -/

theorem insertS_perm {α : Type} (le : α → α → Bool) (x : α) (l : List α) :
    (insertS le x l).Perm (x :: l) := by
  induction l with
  | nil => exact List.Perm.refl _
  | cons y t ih =>
    simp only [insertS]
    by_cases h : le x y = true
    · simp [h]
    · simp only [h, if_false]
      exact (ih.cons y).trans (List.Perm.swap x y t)

theorem sortS_perm {α : Type} (le : α → α → Bool) (l : List α) : (sortS le l).Perm l := by
  induction l with
  | nil => exact List.Perm.refl _
  | cons x t ih =>
    have : sortS le (x :: t) = insertS le x (sortS le t) := rfl
    rw [this]
    exact (insertS_perm le x (sortS le t)).trans (ih.cons x)

theorem mem_insertS {α : Type} {le : α → α → Bool} {x z : α} {l : List α}
    (h : z ∈ insertS le x l) : z = x ∨ z ∈ l := by
  have := (insertS_perm le x l).mem_iff.mp h
  simpa using this

theorem insertS_pairwise {α : Type} {le : α → α → Bool}
    (htrans : ∀ a b c, le a b = true → le b c = true → le a c = true)
    (htot : ∀ a b, le a b = false → le b a = true)
    {x : α} {l : List α} (h : l.Pairwise (fun a b => le a b = true)) :
    (insertS le x l).Pairwise (fun a b => le a b = true) := by
  induction l with
  | nil => simp [insertS]
  | cons y t ih =>
    rcases List.pairwise_cons.mp h with ⟨hy, ht⟩
    show ((if le x y = true then x :: y :: t else y :: insertS le x t).Pairwise _)
    by_cases hxy : le x y = true
    · rw [if_pos hxy]
      refine List.pairwise_cons.mpr ⟨?_, h⟩
      intro z hz
      rcases List.mem_cons.mp hz with rfl | hz
      · exact hxy
      · exact htrans x y z hxy (hy z hz)
    · rw [if_neg hxy]
      refine List.pairwise_cons.mpr ⟨?_, ih ht⟩
      intro z hz
      rcases mem_insertS hz with rfl | hz
      · exact htot _ _ (by simpa using hxy)
      · exact hy z hz

theorem sortS_pairwise {α : Type} {le : α → α → Bool}
    (htrans : ∀ a b c, le a b = true → le b c = true → le a c = true)
    (htot : ∀ a b, le a b = false → le b a = true) (l : List α) :
    (sortS le l).Pairwise (fun a b => le a b = true) := by
  induction l with
  | nil => simp [sortS]
  | cons x t ih => exact insertS_pairwise htrans htot ih

theorem sortS_of_pairwise {α : Type} {le : α → α → Bool} {l : List α}
    (h : l.Pairwise (fun a b => le a b = true)) : sortS le l = l := by
  induction l with
  | nil => rfl
  | cons x t ih =>
    rcases List.pairwise_cons.mp h with ⟨hx, ht⟩
    have hs : sortS le (x :: t) = insertS le x (sortS le t) := rfl
    rw [hs, ih ht]
    cases t with
    | nil => rfl
    | cons y t' => simp [insertS, hx y (by simp)]

theorem eq_of_perm_of_pairwise {α : Type} {le : α → α → Bool} :
    ∀ {l₁ l₂ : List α}, l₁.Perm l₂ → l₁.Pairwise (fun a b => le a b = true) →
      l₂.Pairwise (fun a b => le a b = true) →
      (∀ a ∈ l₁, ∀ b ∈ l₁, le a b = true → le b a = true → a = b) → l₁ = l₂ := by
  intro l₁
  induction l₁ with
  | nil =>
    intro l₂ hp _ _ _
    exact (hp.nil_eq).symm ▸ rfl
  | cons x t₁ ih =>
    intro l₂ hp h1 h2 hanti
    cases l₂ with
    | nil => exact absurd hp.symm.nil_eq (by simp)
    | cons y t₂ =>
      have hxy : x = y := by
        by_contra hne
        have hx2 : x ∈ t₂ := by
          have : x ∈ y :: t₂ := hp.mem_iff.mp (by simp)
          rcases List.mem_cons.mp this with h | h
          · exact absurd h hne
          · exact h
        have hy1 : y ∈ t₁ := by
          have : y ∈ x :: t₁ := hp.symm.mem_iff.mp (by simp)
          rcases List.mem_cons.mp this with h | h
          · exact absurd h.symm hne
          · exact h
        have hlexy : le x y = true := (List.pairwise_cons.mp h1).1 y hy1
        have hleyx : le y x = true := (List.pairwise_cons.mp h2).1 x hx2
        exact hne (hanti x (by simp) y (by simp [hy1]) hlexy hleyx)
      subst hxy
      have hpt : t₁.Perm t₂ := hp.cons_inv
      have := ih hpt (List.pairwise_cons.mp h1).2 (List.pairwise_cons.mp h2).2
        (fun a ha b hb => hanti a (by simp [ha]) b (by simp [hb]))
      rw [this]

/-! ## C8: `generate_case_number_for_date` computes a rank -/

theorem dateLE_trans (a b c : Customer) (hab : dateLE a b = true) (hbc : dateLE b c = true) :
    dateLE a c = true := strLE_trans hab hbc

theorem dateLE_tot (a b : Customer) (h : dateLE a b = false) : dateLE b a = true :=
  strLE_of_not_strLE h

theorem seqLoop_of_pairwise {d : String} :
    ∀ {l : List Customer}, l.Pairwise (fun a b => dateLE a b = true) → ∀ s : Nat,
      seqLoop d s l = s + l.countP (fun c => strLE c.inquiryDate d) := by
  intro l
  induction l with
  | nil => intro _ s; simp [seqLoop]
  | cons c t ih =>
    intro h s
    rcases List.pairwise_cons.mp h with ⟨hc, ht⟩
    show (if strLE c.inquiryDate d = true then seqLoop d (s + 1) t else s) = _
    by_cases hcd : strLE c.inquiryDate d = true
    · rw [if_pos hcd, ih ht (s + 1), List.countP_cons]
      simp [hcd]
      omega
    · rw [if_neg hcd]
      have hzero : t.countP (fun c => strLE c.inquiryDate d) = 0 := by
        rw [List.countP_eq_zero]
        intro x hx
        simp only [Bool.not_eq_true]
        by_contra hxd
        have hxd' : strLE x.inquiryDate d = true := by simpa using hxd
        exact hcd (strLE_trans (hc x hx) hxd')
      rw [List.countP_cons]
      simp [hzero, hcd]

/-- Claim C8 (confirmed): `generateCaseNumber` returns
`{prefix}{year-suffix}{seq:04d}` where `seq` is 1 plus the number of
existing customers with a non-empty inquiry date that is at most the new
inquiry date; prefix and year-suffix rules are those of `categoryPfx` and
`yearShort`; in particular the two examples of the spec hold. -/
theorem C8_case_number_rank :
    (∀ (category : String) (year : Nat) (d : String) (existing : List Customer),
      generateCaseNumberForDate category year d existing =
        categoryPfx category ++ yearShort year ++
          padNum 4 (1 + existing.countP
            (fun c => strLE c.inquiryDate d && decide (c.inquiryDate ≠ "")))) ∧
      categoryPfx "sell" = "S" ∧ categoryPfx "buy" = "B" ∧
      categoryPfx "investment" = "R" ∧ categoryPfx "rental" = "X" ∧
      yearShort 2025 = "25" ∧ yearShort 1999 = "1999" ∧
      generateCaseNumberForDate "sell" 2025 "2025-04-15" [] = "S250001" ∧
      generateCaseNumberForDate "sell" 2025 "2025-04-15"
        [⟨"c0", "2025-04-01", "S250001", ""⟩] = "S250002" := by
  refine ⟨?_, by decide, by decide, by decide, by decide, by decide, by decide,
    by decide, by decide⟩
  intro category year d existing
  show categoryPfx category ++ yearShort year ++
      padNum 4 (seqLoop d 1 (sortS dateLE (existing.filter (fun c => c.inquiryDate ≠ "")))) = _
  have hpair := sortS_pairwise dateLE_trans dateLE_tot
    (existing.filter (fun c => c.inquiryDate ≠ ""))
  rw [seqLoop_of_pairwise hpair 1]
  have hperm := sortS_perm dateLE (existing.filter (fun c => c.inquiryDate ≠ ""))
  rw [hperm.countP_eq, List.countP_filter]

/-! ## C10: `generate_case_number_for_date` can collide with an existing
case number -/

/-- The existing customer of the collision scenario. -/
def c10Existing : Customer := ⟨"cust-1", "2025-04-01", "S250001", ""⟩

/-- Claim C10 (confirmed): with one existing sell/2025 customer holding
case number "S250001" for inquiry date 2025-04-01, generating a number
for the earlier inquiry date 2025-03-01 returns "S250001" again — equal
to the case number already assigned. -/
theorem C10_case_number_collision :
    generateCaseNumberForDate "sell" 2025 "2025-03-01" [c10Existing] = "S250001" ∧
      c10Existing.caseNumber = "S250001" := by
  exact ⟨by decide, rfl⟩

/-! ## C1: lease acquisition -/

theorem liveLocks_cleanup (now : Nat) (s : List Lock) :
    liveLocks now (cleanupExpiredLocks now s) = liveLocks now s := by
  simp only [liveLocks, cleanupExpiredLocks, List.filter_filter]
  apply List.filter_congr
  intro a _
  by_cases h : now < a.expiresAt
  · have h2 : ¬ a.expiresAt < now := by omega
    simp [h, h2]
  · simp [h]

/-- Claim C1 counterexample: when the uniqueness constraint rejects the
INSERT (a concurrent winner committed the lock row between the SELECT
and the INSERT), `check_lock_available` does not return the winner's
holder and expiry — it returns the placeholder
`{"user": "unknown", "expires_at": ""}`. -/
theorem C1_counterexample :
    (checkLockAvailable [] 0 "contract" "c1" "loser"
        (some ⟨"contract", "c1", "winner", 0, 120⟩)).1 =
      LockResult.denied "unknown" Option.none Option.none ∧
    (⟨"contract", "c1", "winner", 0, 120⟩ : Lock).lockedBy = "winner" ∧
    LockResult.denied "unknown" Option.none Option.none ≠
      LockResult.denied "winner" (some 0) (some 120) := by
  exact ⟨by decide, rfl, by decide⟩

/-- Claim C1 (corrected): when a live lease for the key survives the
purge and is found by the SELECT, acquire returns a Conflict carrying
that lease's holder and expiry and leaves the live leases unchanged; but
when the INSERT is rejected by the uniqueness constraint, acquire — while
still returning a Conflict rather than an error or a lease — returns the
placeholder holder `"unknown"` with no expiry instead of the winner's
lease. -/
theorem C1_acquire_conflict (s : List Lock) (now : Nat) (rt rid user : String)
    (race : Option Lock) :
    (∀ L : Lock, findLock (cleanupExpiredLocks now s) rt rid = some L →
      now < L.expiresAt →
      (checkLockAvailable s now rt rid user race).1 =
          LockResult.denied L.lockedBy (some L.lockedAt) (some L.expiresAt) ∧
        liveLocks now (checkLockAvailable s now rt rid user race).2 = liveLocks now s) ∧
    (∀ w : Lock, findLock (cleanupExpiredLocks now s) rt rid = Option.none →
      race = some w → w.resourceType = rt → w.resourceId = rid →
      (checkLockAvailable s now rt rid user race).1 =
          LockResult.denied "unknown" Option.none Option.none ∧
        (checkLockAvailable s now rt rid user race).2 =
          cleanupExpiredLocks now s ++ [w]) := by
  constructor
  · intro L hfind _
    simp only [checkLockAvailable, hfind]
    exact ⟨trivial, liveLocks_cleanup now s⟩
  · intro w hfind hrace hrt hrid
    simp only [checkLockAvailable, hfind, hrace]
    rw [if_pos ⟨hrt, hrid⟩]
    constructor <;> trivial

/-- Witness: both branches of `C1_acquire_conflict` at concrete states. -/
theorem C1_acquire_conflict_witness :
    ((checkLockAvailable [⟨"contract", "c1", "w", 0, 120⟩] 10 "contract" "c1" "u"
          Option.none).1 =
        LockResult.denied "w" (some 0) (some 120) ∧
      liveLocks 10 (checkLockAvailable [⟨"contract", "c1", "w", 0, 120⟩] 10 "contract" "c1"
          "u" Option.none).2 =
        liveLocks 10 [⟨"contract", "c1", "w", 0, 120⟩]) ∧
    ((checkLockAvailable [] 0 "contract" "c1" "loser"
          (some ⟨"contract", "c1", "winner", 0, 120⟩)).1 =
        LockResult.denied "unknown" Option.none Option.none ∧
      (checkLockAvailable [] 0 "contract" "c1" "loser"
          (some ⟨"contract", "c1", "winner", 0, 120⟩)).2 =
        cleanupExpiredLocks 0 [] ++ [⟨"contract", "c1", "winner", 0, 120⟩]) := by
  exact ⟨(C1_acquire_conflict [⟨"contract", "c1", "w", 0, 120⟩] 10 "contract" "c1" "u"
      Option.none).1 ⟨"contract", "c1", "w", 0, 120⟩ (by decide) (by decide),
    (C1_acquire_conflict [] 0 "contract" "c1" "loser"
      (some ⟨"contract", "c1", "winner", 0, 120⟩)).2 ⟨"contract", "c1", "winner", 0, 120⟩
      (by decide) rfl rfl rfl⟩

/-! ## Dict lemmas -/

theorem dictGet_dictSet_self (l : List (String × PyVal)) (k : String) (v : PyVal) :
    dictGet (dictSet l k v) k = some v := by
  induction l with
  | nil => simp [dictSet, dictGet]
  | cons kv t ih =>
    rcases kv with ⟨k', v'⟩
    by_cases h : k' = k
    · simp [dictSet, dictGet, h]
    · simp [dictSet, dictGet, h, ih]

theorem dictGet_dictSet_ne (l : List (String × PyVal)) {k k' : String} (v : PyVal)
    (h : k' ≠ k) : dictGet (dictSet l k v) k' = dictGet l k' := by
  induction l with
  | nil => simp [dictSet, dictGet, Ne.symm h]
  | cons kv t ih =>
    rcases kv with ⟨k'', v''⟩
    by_cases h2 : k'' = k
    · subst h2
      simp [dictSet, dictGet, Ne.symm h]
    · by_cases h3 : k'' = k'
      · simp [dictSet, dictGet, h2, h3, h]
      · simp [dictSet, dictGet, h2, h3, ih]

/-! ## C4: `save_goal_for_year` derives `storeTarget` -/

/-- The shared example payload: staff targets A=3, B=5 with
caller-supplied storeTarget 1. -/
def c4Body : PyVal :=
  .dict [("storeTarget", .int 1), ("staffTargets", .dict [("A", .int 3), ("B", .int 5)])]

/-- Claim C4 (confirmed): the annual goal persisted by
`save_goal_for_year` always has `storeTarget` equal to the sum of its own
`staffTargets` values; on the example payload the persisted annual
`storeTarget` is 8 (ignoring the caller's 1) while the monthly save
keeps the caller's 1. -/
theorem C4_annual_store_target_derived :
    (∀ body v : PyVal, savedAnnualGoal body = .ok v →
      pySumInts (staffTargetsOf v) = some (storeTargetValOf v)) ∧
    savedAnnualGoal c4Body =
      .ok (.dict [("storeTarget", .int 8),
        ("staffTargets", .dict [("A", .int 3), ("B", .int 5)]),
        ("includeStaff", .list [])]) ∧
    savedMonthlyGoal c4Body =
      .ok (.dict [("storeTarget", .int 1),
        ("staffTargets", .dict [("A", .int 3), ("B", .int 5)]),
        ("includeStaff", .list [])]) := by
  refine ⟨?_, rfl, rfl⟩
  intro body v h
  unfold savedAnnualGoal at h
  cases hn : normalizeGoal body with
  | error e => rw [hn] at h; simp at h
  | ok u =>
    rw [hn] at h
    dsimp only at h
    cases hs : pySumInts (staffTargetsOf u) with
    | none => rw [hs] at h; simp at h
    | some s =>
      rw [hs] at h
      dsimp only at h
      cases u with
      | dict l =>
        have hv : v = .dict (dictSet l "storeTarget" (.int s)) := by
          simpa using h.symm
        subst hv
        have h1 : dictGet (dictSet l "storeTarget" (.int s)) "storeTarget" =
            some (.int s) := dictGet_dictSet_self l _ _
        have h2 : dictGet (dictSet l "storeTarget" (.int s)) "staffTargets" =
            dictGet l "staffTargets" := dictGet_dictSet_ne l _ (by decide)
        simp only [staffTargetsOf, storeTargetValOf, h1, h2]
        simpa [staffTargetsOf] using hs
      | none =>
        have hv : v = PyVal.none := by simpa using h.symm
        subst hv
        rfl
      | bool b =>
        have hv : v = PyVal.bool b := by simpa using h.symm
        subst hv
        rfl
      | int n =>
        have hv : v = PyVal.int n := by simpa using h.symm
        subst hv
        rfl
      | float q =>
        have hv : v = PyVal.float q := by simpa using h.symm
        subst hv
        rfl
      | str s' =>
        have hv : v = PyVal.str s' := by simpa using h.symm
        subst hv
        rfl
      | list xs =>
        have hv : v = PyVal.list xs := by simpa using h.symm
        subst hv
        rfl

/-- Witness: the general part of `C4_annual_store_target_derived` at the
example payload. -/
theorem C4_annual_store_target_derived_witness :
    pySumInts (staffTargetsOf (.dict [("storeTarget", .int 8),
        ("staffTargets", .dict [("A", .int 3), ("B", .int 5)]),
        ("includeStaff", .list [])])) =
      some (storeTargetValOf (.dict [("storeTarget", .int 8),
        ("staffTargets", .dict [("A", .int 3), ("B", .int 5)]),
        ("includeStaff", .list [])])) := by
  exact C4_annual_store_target_derived.1 c4Body _ rfl

/-! ## C2: `build_monthly_progress` derives one signed and at most one
canceled event per contract -/

/-- Sum of the store-level `signed` counters over all months. -/
def signedTotal (m : List (String × Progress)) : Int :=
  (m.map (fun kv => kv.2.signed)).sum

def canceledTotal (m : List (String × Progress)) : Int :=
  (m.map (fun kv => kv.2.canceled)).sum

def netTotal (m : List (String × Progress)) : Int :=
  (m.map (fun kv => kv.2.net)).sum

/-- Sum of the per-staff `signed` counters over all months and staff. -/
def staffSignedTotal (m : List (String × Progress)) : Int :=
  (m.map (fun kv => (kv.2.staff.map (fun s => s.2.signed)).sum)).sum

def staffCanceledTotal (m : List (String × Progress)) : Int :=
  (m.map (fun kv => (kv.2.staff.map (fun s => s.2.canceled)).sum)).sum

def staffNetTotal (m : List (String × Progress)) : Int :=
  (m.map (fun kv => (kv.2.staff.map (fun s => s.2.net)).sum)).sum

theorem bumpStaff_map_sum (f : StaffCnt → StaffCnt) (g : StaffCnt → Int) (δ : Int)
    (hf : ∀ s, g (f s) = g s + δ) (hg0 : g zeroStaffCnt = 0) (name : String) :
    ∀ l : List (String × StaffCnt),
      ((bumpStaff f name l).map (fun s => g s.2)).sum =
        (l.map (fun s => g s.2)).sum + δ := by
  intro l
  induction l with
  | nil => simp [bumpStaff, hf, hg0]
  | cons kv t ih =>
    rcases kv with ⟨n, sc⟩
    by_cases h : n = name
    · subst h
      simp only [bumpStaff, eq_self_iff_true, if_true, List.map_cons, List.sum_cons, hf]
      ring
    · simp only [bumpStaff, if_neg h, List.map_cons, List.sum_cons, ih]
      ring

theorem monthUpsert_map_sum (f : Progress → Progress) (g : Progress → Int) (δ : Int)
    (hf : ∀ p, g (f p) = g p + δ) (hg0 : g zeroProgress = 0) (mk : String) :
    ∀ m : List (String × Progress),
      ((monthUpsert mk f m).map (fun kv => g kv.2)).sum =
        (m.map (fun kv => g kv.2)).sum + δ := by
  intro m
  induction m with
  | nil => simp [monthUpsert, hf, hg0]
  | cons kv t ih =>
    rcases kv with ⟨k, p⟩
    by_cases h : k = mk
    · subst h
      simp only [monthUpsert, eq_self_iff_true, if_true, List.map_cons, List.sum_cons, hf]
      ring
    · simp only [monthUpsert, if_neg h, List.map_cons, List.sum_cons, ih]
      ring

/-- The per-contract indicator of a resolvable signed month. -/
def sInd (c : Contract) : Int := if (signedMonthOf c).isSome then 1 else 0

/-- The per-contract indicator of a resolvable canceled month. -/
def cInd (c : Contract) : Int := if (cancelMonthOf c).isSome then 1 else 0

theorem applyContract_totals (m : List (String × Progress)) (c : Contract) :
    signedTotal (applyContract m c) = signedTotal m + sInd c ∧
    canceledTotal (applyContract m c) = canceledTotal m + cInd c ∧
    netTotal (applyContract m c) = netTotal m + sInd c - cInd c ∧
    staffSignedTotal (applyContract m c) = staffSignedTotal m + sInd c ∧
    staffCanceledTotal (applyContract m c) = staffCanceledTotal m + cInd c ∧
    staffNetTotal (applyContract m c) = staffNetTotal m + sInd c - cInd c := by
  have hS := fun (name : String) (mk : String) (m : List (String × Progress)) =>
    monthUpsert_map_sum (bumpSigned name) (fun p => p.signed) 1 (fun p => rfl) rfl mk m
  have hSc := fun (name : String) (mk : String) (m : List (String × Progress)) =>
    monthUpsert_map_sum (bumpSigned name) (fun p => p.canceled) 0 (fun p => by
      simp [bumpSigned]) rfl mk m
  have hSn := fun (name : String) (mk : String) (m : List (String × Progress)) =>
    monthUpsert_map_sum (bumpSigned name) (fun p => p.net) 1 (fun p => rfl) rfl mk m
  have hSs := fun (name : String) (mk : String) (m : List (String × Progress)) =>
    monthUpsert_map_sum (bumpSigned name)
      (fun p => (p.staff.map (fun s => s.2.signed)).sum) 1
      (fun p => bumpStaff_map_sum _ (fun s => s.signed) 1 (fun s => rfl) rfl name p.staff)
      rfl mk m
  have hSsc := fun (name : String) (mk : String) (m : List (String × Progress)) =>
    monthUpsert_map_sum (bumpSigned name)
      (fun p => (p.staff.map (fun s => s.2.canceled)).sum) 0
      (fun p => bumpStaff_map_sum _ (fun s => s.canceled) 0 (fun s => by simp) rfl name p.staff)
      rfl mk m
  have hSsn := fun (name : String) (mk : String) (m : List (String × Progress)) =>
    monthUpsert_map_sum (bumpSigned name)
      (fun p => (p.staff.map (fun s => s.2.net)).sum) 1
      (fun p => bumpStaff_map_sum _ (fun s => s.net) 1 (fun s => rfl) rfl name p.staff)
      rfl mk m
  have hC := fun (name : String) (mk : String) (m : List (String × Progress)) =>
    monthUpsert_map_sum (bumpCanceled name) (fun p => p.signed) 0 (fun p => by
      simp [bumpCanceled]) rfl mk m
  have hCc := fun (name : String) (mk : String) (m : List (String × Progress)) =>
    monthUpsert_map_sum (bumpCanceled name) (fun p => p.canceled) 1 (fun p => rfl) rfl mk m
  have hCn := fun (name : String) (mk : String) (m : List (String × Progress)) =>
    monthUpsert_map_sum (bumpCanceled name) (fun p => p.net) (-1) (fun p => by
      simp [bumpCanceled]; ring) rfl mk m
  have hCs := fun (name : String) (mk : String) (m : List (String × Progress)) =>
    monthUpsert_map_sum (bumpCanceled name)
      (fun p => (p.staff.map (fun s => s.2.signed)).sum) 0
      (fun p => bumpStaff_map_sum _ (fun s => s.signed) 0 (fun s => by simp) rfl name p.staff)
      rfl mk m
  have hCsc := fun (name : String) (mk : String) (m : List (String × Progress)) =>
    monthUpsert_map_sum (bumpCanceled name)
      (fun p => (p.staff.map (fun s => s.2.canceled)).sum) 1
      (fun p => bumpStaff_map_sum _ (fun s => s.canceled) 1 (fun s => rfl) rfl name p.staff)
      rfl mk m
  have hCsn := fun (name : String) (mk : String) (m : List (String × Progress)) =>
    monthUpsert_map_sum (bumpCanceled name)
      (fun p => (p.staff.map (fun s => s.2.net)).sum) (-1)
      (fun p => bumpStaff_map_sum _ (fun s => s.net) (-1) (fun s => by
        dsimp only [bumpCanceled]
        omega) rfl name p.staff)
      rfl mk m
  simp only [applyContract, sInd, cInd]
  cases hsm : signedMonthOf c with
  | none =>
    cases hcm : cancelMonthOf c with
    | none =>
      simp only [Option.isSome_none, if_false, Bool.false_eq_true]
      constructor
      · omega
      refine ⟨?_, ?_, ?_, ?_, ?_⟩ <;> omega
    | some mk =>
      simp only [Option.isSome_some, Option.isSome_none, if_true, if_false,
        Bool.false_eq_true]
      exact ⟨by simpa [signedTotal] using hC (staffKeyOf c) mk m,
        by simpa [canceledTotal] using hCc (staffKeyOf c) mk m,
        by have := hCn (staffKeyOf c) mk m
           simp only [netTotal]
           omega,
        by simpa [staffSignedTotal] using hCs (staffKeyOf c) mk m,
        by simpa [staffCanceledTotal] using hCsc (staffKeyOf c) mk m,
        by have := hCsn (staffKeyOf c) mk m
           simp only [staffNetTotal]
           omega⟩
  | some mk =>
    cases hcm : cancelMonthOf c with
    | none =>
      simp only [Option.isSome_some, Option.isSome_none, if_true, if_false,
        Bool.false_eq_true]
      exact ⟨by simpa [signedTotal] using hS (staffKeyOf c) mk m,
        by simpa [canceledTotal] using hSc (staffKeyOf c) mk m,
        by have := hSn (staffKeyOf c) mk m
           simp only [netTotal]
           omega,
        by simpa [staffSignedTotal] using hSs (staffKeyOf c) mk m,
        by simpa [staffCanceledTotal] using hSsc (staffKeyOf c) mk m,
        by have := hSsn (staffKeyOf c) mk m
           simp only [staffNetTotal]
           omega⟩
    | some mk2 =>
      simp only [Option.isSome_some, if_true]
      have e1 := hS (staffKeyOf c) mk m
      have e2 := hC (staffKeyOf c) mk2 (monthUpsert mk (bumpSigned (staffKeyOf c)) m)
      have f1 := hSc (staffKeyOf c) mk m
      have f2 := hCc (staffKeyOf c) mk2 (monthUpsert mk (bumpSigned (staffKeyOf c)) m)
      have g1 := hSn (staffKeyOf c) mk m
      have g2 := hCn (staffKeyOf c) mk2 (monthUpsert mk (bumpSigned (staffKeyOf c)) m)
      have i1 := hSs (staffKeyOf c) mk m
      have i2 := hCs (staffKeyOf c) mk2 (monthUpsert mk (bumpSigned (staffKeyOf c)) m)
      have j1 := hSsc (staffKeyOf c) mk m
      have j2 := hCsc (staffKeyOf c) mk2 (monthUpsert mk (bumpSigned (staffKeyOf c)) m)
      have k1 := hSsn (staffKeyOf c) mk m
      have k2 := hCsn (staffKeyOf c) mk2 (monthUpsert mk (bumpSigned (staffKeyOf c)) m)
      simp only [signedTotal, canceledTotal, netTotal, staffSignedTotal,
        staffCanceledTotal, staffNetTotal]
      refine ⟨?_, ?_, ?_, ?_, ?_, ?_⟩ <;> omega

theorem buildMonthly_totals :
    ∀ (cs : List Contract) (m : List (String × Progress)),
      signedTotal (cs.foldl applyContract m) =
          signedTotal m + (cs.countP (fun c => (signedMonthOf c).isSome) : Int) ∧
        canceledTotal (cs.foldl applyContract m) =
          canceledTotal m + (cs.countP (fun c => (cancelMonthOf c).isSome) : Int) ∧
        netTotal (cs.foldl applyContract m) =
          netTotal m + (cs.countP (fun c => (signedMonthOf c).isSome) : Int) -
            (cs.countP (fun c => (cancelMonthOf c).isSome) : Int) ∧
        staffSignedTotal (cs.foldl applyContract m) =
          staffSignedTotal m + (cs.countP (fun c => (signedMonthOf c).isSome) : Int) ∧
        staffCanceledTotal (cs.foldl applyContract m) =
          staffCanceledTotal m + (cs.countP (fun c => (cancelMonthOf c).isSome) : Int) ∧
        staffNetTotal (cs.foldl applyContract m) =
          staffNetTotal m + (cs.countP (fun c => (signedMonthOf c).isSome) : Int) -
            (cs.countP (fun c => (cancelMonthOf c).isSome) : Int) := by
  intro cs
  induction cs with
  | nil => intro m; simp
  | cons c t ih =>
    intro m
    have hstep := applyContract_totals m c
    have hrec := ih (applyContract m c)
    rcases hstep with ⟨s1, s2, s3, s4, s5, s6⟩
    rcases hrec with ⟨r1, r2, r3, r4, r5, r6⟩
    simp only [List.foldl_cons] at *
    simp only [List.countP_cons]
    simp only [sInd, cInd] at s1 s2 s3 s4 s5 s6
    by_cases hs : (signedMonthOf c).isSome = true <;>
      by_cases hc : (cancelMonthOf c).isSome = true
    all_goals
      simp [hs, hc, List.countP_cons] at *
    all_goals
      refine ⟨?_, ?_, ?_, ?_, ?_, ?_⟩ <;> omega

/-- Claim C2 (confirmed): every contract contributes exactly one signed
event when its signed month (mediation start date, else status date)
resolves, and exactly one canceled event when its canceled month (the
date inside the cancel-reason dict, else — for deal status "中止" — the
status date) resolves: store-level and staff-level totals equal those
counts, and the spec's single-contract example and the "unassigned"
staff sentinel both hold. -/
theorem C2_monthly_progress_events :
    (∀ contracts : List Contract,
      signedTotal (buildMonthlyProgress contracts) =
          (contracts.countP (fun c => (signedMonthOf c).isSome) : Int) ∧
        canceledTotal (buildMonthlyProgress contracts) =
          (contracts.countP (fun c => (cancelMonthOf c).isSome) : Int) ∧
        netTotal (buildMonthlyProgress contracts) =
          (contracts.countP (fun c => (signedMonthOf c).isSome) : Int) -
            (contracts.countP (fun c => (cancelMonthOf c).isSome) : Int) ∧
        staffSignedTotal (buildMonthlyProgress contracts) =
          (contracts.countP (fun c => (signedMonthOf c).isSome) : Int) ∧
        staffCanceledTotal (buildMonthlyProgress contracts) =
          (contracts.countP (fun c => (cancelMonthOf c).isSome) : Int) ∧
        staffNetTotal (buildMonthlyProgress contracts) =
          (contracts.countP (fun c => (signedMonthOf c).isSome) : Int) -
            (contracts.countP (fun c => (cancelMonthOf c).isSome) : Int)) ∧
    buildMonthlyProgress [⟨"Tanaka", "2025-04-10", "", "", .other ""⟩] =
      [("2025-04", ⟨1, 0, 1, [("Tanaka", ⟨1, 0, 1⟩)]⟩)] ∧
    buildMonthlyProgress [⟨"", "2025-04-10", "", "", .other ""⟩] =
      [("2025-04", ⟨1, 0, 1, [("未設定", ⟨1, 0, 1⟩)]⟩)] ∧
    buildMonthlyProgress [⟨"", "2025-04-10", "2025-05-01", "中止", .info "2025-06-01"⟩] =
      [("2025-04", ⟨1, 0, 1, [("未設定", ⟨1, 0, 1⟩)]⟩),
        ("2025-06", ⟨0, 1, -1, [("未設定", ⟨0, 1, -1⟩)]⟩)] := by
  refine ⟨?_, by decide, by decide, by decide⟩
  intro contracts
  have h := buildMonthly_totals contracts []
  simpa [buildMonthlyProgress, signedTotal, canceledTotal, netTotal, staffSignedTotal,
    staffCanceledTotal, staffNetTotal] using h

/-! ## C7: `normalize_sales` store derivation -/

/-- The raw `store` field of a sales payload (`Option.none` when the
payload is not a dict or has no `store` key). -/
def storeRawOf (x : PyVal) : Option PyVal :=
  match x with
  | .dict d => dictGet d "store"
  | _ => Option.none

/-- `float(rec.get("store"))` as the code attempts it: `Option.none` is
the caught `TypeError`/`ValueError` (absent or unparsable store). -/
def parsedStore (x : PyVal) : Option Rat := pyFloat ((storeRawOf x).getD .none)

/-- The numeric value of the `store` field of a (normalized) record. -/
def storeNumOf (v : PyVal) : Rat := pyNumVal ((storeRawOf v).getD .none)

/-- The `staff` mapping of a (normalized) record. -/
def salesStaffOf (v : PyVal) : List (String × PyVal) :=
  match v with
  | .dict d =>
    match dictGet d "staff" with
    | some (.dict l) => l
    | _ => []
  | _ => []

/-- Numeric sum of the values of a staff mapping. -/
def sumVals (l : List (String × PyVal)) : Rat := (l.map (fun kv => pyNumVal kv.2)).sum

theorem pyNumVal_pyAdd (a b : PyVal) : pyNumVal (pyAdd a b) = pyNumVal a + pyNumVal b := by
  cases a <;> cases b <;> simp [pyAdd, pyNumVal]

theorem pyNumVal_pySum (vals : List PyVal) :
    pyNumVal (pySum vals) = (vals.map pyNumVal).sum := by
  have h : ∀ (vs : List PyVal) (a : PyVal),
      pyNumVal (vs.foldl pyAdd a) = pyNumVal a + (vs.map pyNumVal).sum := by
    intro vs
    induction vs with
    | nil => intro a; simp
    | cons v t ih =>
      intro a
      simp only [List.foldl_cons, List.map_cons, List.sum_cons, ih, pyNumVal_pyAdd]
      ring
  simpa [pySum, pyNumVal] using h vals (.int 0)

/-- Claim C7 (confirmed): for every normalized sales record, (a) an
absent or invalid `store` makes the returned store the sum of the
cleaned staff values, (b) a `store` that parses to zero while the
cleaned staff mapping is non-empty with some non-zero value is replaced
by that sum, and (c) empty staff plus missing store yields store 0. -/
theorem salesStaffOf_pair (x : PyVal) (staff : List (String × PyVal)) :
    salesStaffOf (.dict [("store", x), ("staff", .dict staff)]) = staff := by
  simp [salesStaffOf, dictGet]

theorem storeNumOf_pair (x y : PyVal) :
    storeNumOf (.dict [("store", x), ("staff", y)]) = pyNumVal x := by
  simp [storeNumOf, storeRawOf, dictGet]

/-- Claim C7 (confirmed): for every normalized sales record, (a) an
absent or invalid `store` makes the returned store the sum of the
cleaned staff values, (b) a `store` that parses to zero while the
cleaned staff mapping is non-empty with some non-zero value is replaced
by that sum, and (c) empty staff plus missing store yields store 0. -/
theorem C7_sales_store_derivation (x v : PyVal) (h : normalizeSales x = .ok v) :
    (parsedStore x = Option.none → storeNumOf v = sumVals (salesStaffOf v)) ∧
    (parsedStore x = some 0 → salesStaffOf v ≠ [] →
      (∃ kv ∈ salesStaffOf v, pyNumVal kv.2 ≠ 0) →
      storeNumOf v = sumVals (salesStaffOf v)) ∧
    (storeRawOf x = Option.none → salesStaffOf v = [] → storeNumOf v = 0) := by
  have hbase : ∀ v : PyVal, v = .dict salesBase →
      (parsedStore x = Option.none → storeNumOf v = sumVals (salesStaffOf v)) ∧
      (parsedStore x = some 0 → salesStaffOf v ≠ [] →
        (∃ kv ∈ salesStaffOf v, pyNumVal kv.2 ≠ 0) →
        storeNumOf v = sumVals (salesStaffOf v)) ∧
      (storeRawOf x = Option.none → salesStaffOf v = [] → storeNumOf v = 0) := by
    intro v hv
    subst hv
    refine ⟨fun _ => ?_, fun _ hne _ => ?_, fun _ _ => ?_⟩
    · simp [salesBase, storeNumOf, storeRawOf, dictGet, sumVals, salesStaffOf, pyNumVal]
    · exact absurd (by simp [salesBase, salesStaffOf, dictGet]) hne
    · simp [salesBase, storeNumOf, storeRawOf, dictGet, pyNumVal]
  cases x with
  | dict d =>
    simp only [normalizeSales] at h
    cases hst : pyOrElse (obs d "staff") (.dict []) with
    | dict entries =>
      rw [hst] at h
      dsimp only at h
      injection h with h2
      have hsum : pyNumVal (pySum ((cleanSalesStaff entries).map (fun kv => kv.2))) =
          sumVals (cleanSalesStaff entries) := by
        rw [pyNumVal_pySum, sumVals, List.map_map]
        rfl
      refine ⟨?_, ?_, ?_⟩
      · intro hnone
        rw [← h2, salesStaffOf_pair, storeNumOf_pair]
        have hnone' : pyFloat (obs d "store") = Option.none := hnone
        simp only [hnone']
        by_cases hz : pyNumVal (pySum ((cleanSalesStaff entries).map (fun kv => kv.2))) = 0 ∧
            (cleanSalesStaff entries).isEmpty = false
        · rw [if_pos hz]
          exact hsum
        · rw [if_neg hz]
          exact hsum
      · intro hzero hne _
        rw [← h2, salesStaffOf_pair, storeNumOf_pair]
        rw [← h2, salesStaffOf_pair] at hne
        have hzero' : pyFloat (obs d "store") = some 0 := hzero
        simp only [hzero']
        have hlt : ¬ ((0 : Rat) < 0) := lt_irrefl 0
        have hemp : (cleanSalesStaff entries).isEmpty = false := by
          cases he : cleanSalesStaff entries with
          | nil => exact absurd he hne
          | cons a t => rfl
        rw [if_pos ⟨by simp [pyNumVal, hlt], hemp⟩]
        exact hsum
      · intro hraw hempty
        rw [← h2, salesStaffOf_pair] at hempty
        rw [← h2, storeNumOf_pair]
        simp only [storeRawOf] at hraw
        have hnone : pyFloat (obs d "store") = Option.none := by
          simp [obs, hraw, pyFloat]
        simp only [hnone, hempty]
        simp [pySum, pyNumVal]
    | none => rw [hst] at h; simp at h
    | bool b => rw [hst] at h; simp at h
    | int n => rw [hst] at h; simp at h
    | float q => rw [hst] at h; simp at h
    | str s => rw [hst] at h; simp at h
    | list xs => rw [hst] at h; simp at h
  | none => exact hbase v (by simpa [normalizeSales] using h.symm)
  | bool b => exact hbase v (by simpa [normalizeSales] using h.symm)
  | int n => exact hbase v (by simpa [normalizeSales] using h.symm)
  | float q => exact hbase v (by simpa [normalizeSales] using h.symm)
  | str s => exact hbase v (by simpa [normalizeSales] using h.symm)
  | list xs => exact hbase v (by simpa [normalizeSales] using h.symm)

/-- Witness: parts (a) and (c) of `C7_sales_store_derivation` at
concrete records. -/
theorem C7_sales_store_derivation_witness :
    storeNumOf (.dict [("store", .int 0), ("staff", .dict [("A", .int 0)])]) =
        sumVals (salesStaffOf
          (.dict [("store", .int 0), ("staff", .dict [("A", .int 0)])])) ∧
      storeNumOf (.dict [("store", .int 0), ("staff", .dict [])]) = 0 := by
  constructor
  · exact (C7_sales_store_derivation (.dict [("staff", .dict [("A", .float (-1))])])
      (.dict [("store", .int 0), ("staff", .dict [("A", .int 0)])]) (by rfl)).1 (by rfl)
  · exact (C7_sales_store_derivation (.dict [])
      (.dict [("store", .int 0), ("staff", .dict [])]) (by rfl)).2.2 (by rfl) (by rfl)

/-! ## Structure of `normalize_goal` inputs and outputs (towards C5/C6) -/

/-- The keys of a model dict, in order. -/
def keysOf (l : List (String × PyVal)) : List String := l.map (fun kv => kv.1)

theorem dictSet_cons (k' : String) (v' : PyVal) (t : List (String × PyVal)) (k : String)
    (v : PyVal) :
    dictSet ((k', v') :: t) k v =
      if k' = k then (k, v) :: t else (k', v') :: dictSet t k v := rfl

theorem keysOf_cons (k : String) (v : PyVal) (t : List (String × PyVal)) :
    keysOf ((k, v) :: t) = k :: keysOf t := rfl

theorem keysOf_dictSet_mem (k : String) (v : PyVal) :
    ∀ l : List (String × PyVal), k ∈ keysOf l → keysOf (dictSet l k v) = keysOf l := by
  intro l
  induction l with
  | nil => intro h; simp [keysOf] at h
  | cons kv t ih =>
    intro h
    rcases kv with ⟨k', v'⟩
    by_cases hk : k' = k
    · subst hk
      rw [dictSet_cons, if_pos rfl, keysOf_cons, keysOf_cons]
    · have hmem : k ∈ keysOf t := by
        rw [keysOf_cons] at h
        rcases List.mem_cons.mp h with h1 | h1
        · exact absurd h1.symm hk
        · exact h1
      rw [dictSet_cons, if_neg hk, keysOf_cons, keysOf_cons, ih hmem]

theorem keysOf_dictSet_not_mem (k : String) (v : PyVal) :
    ∀ l : List (String × PyVal), k ∉ keysOf l →
      keysOf (dictSet l k v) = keysOf l ++ [k] := by
  intro l
  induction l with
  | nil => intro _; rfl
  | cons kv t ih =>
    intro h
    rcases kv with ⟨k', v'⟩
    rw [keysOf_cons] at h
    have hk : k' ≠ k := fun he => h (by rw [he]; exact List.mem_cons_self _ _)
    have ht : k ∉ keysOf t := fun hm => h (List.mem_cons_of_mem _ hm)
    rw [dictSet_cons, if_neg hk, keysOf_cons, keysOf_cons, ih ht]
    rfl

theorem dictSet_fresh (k : String) (v : PyVal) :
    ∀ l : List (String × PyVal), k ∉ keysOf l → dictSet l k v = l ++ [(k, v)] := by
  intro l
  induction l with
  | nil => intro _; rfl
  | cons kv t ih =>
    intro h
    rcases kv with ⟨k', v'⟩
    rw [keysOf_cons] at h
    have hk : k' ≠ k := fun he => h (by rw [he]; exact List.mem_cons_self _ _)
    have ht : k ∉ keysOf t := fun hm => h (List.mem_cons_of_mem _ hm)
    rw [dictSet_cons, if_neg hk, ih ht]
    rfl

theorem nodup_keysOf_dictSet {l : List (String × PyVal)} {k : String} (v : PyVal)
    (h : (keysOf l).Nodup) : (keysOf (dictSet l k v)).Nodup := by
  by_cases hm : k ∈ keysOf l
  · rw [keysOf_dictSet_mem k v l hm]
    exact h
  · rw [keysOf_dictSet_not_mem k v l hm]
    simpa [List.nodup_append] using ⟨h, hm⟩

theorem not_mem_keysOf_dictSet {l : List (String × PyVal)} {k k' : String} (v : PyVal)
    (h : k' ∉ keysOf l) (hne : k' ≠ k) : k' ∉ keysOf (dictSet l k v) := by
  by_cases hm : k ∈ keysOf l
  · rw [keysOf_dictSet_mem k v l hm]
    exact h
  · rw [keysOf_dictSet_not_mem k v l hm]
    simp [h, hne]

/-- Well-formedness of the extra entries an input dict contributes beyond
the three canonical goal keys. -/
def GoalRestProps (rest : List (String × PyVal)) : Prop :=
  (keysOf rest).Nodup ∧ "storeTarget" ∉ keysOf rest ∧ "staffTargets" ∉ keysOf rest ∧
    "includeStaff" ∉ keysOf rest

/-- The dict shape maintained by `normalized.update(goal)` starting from
`goalBase`. -/
def GoalDictShape (l : List (String × PyVal)) : Prop :=
  ∃ a b c rest, l = ("storeTarget", a) :: ("staffTargets", b) :: ("includeStaff", c) :: rest ∧
    GoalRestProps rest

theorem goalDictShape_dictSet {l : List (String × PyVal)} (k : String) (v : PyVal)
    (h : GoalDictShape l) : GoalDictShape (dictSet l k v) := by
  rcases h with ⟨a, b, c, rest, rfl, hnd, h1, h2, h3⟩
  by_cases hk1 : k = "storeTarget"
  · subst hk1
    refine ⟨v, b, c, rest, ?_, hnd, h1, h2, h3⟩
    rw [dictSet_cons, if_pos rfl]
  · by_cases hk2 : k = "staffTargets"
    · subst hk2
      refine ⟨a, v, c, rest, ?_, hnd, h1, h2, h3⟩
      rw [dictSet_cons, if_neg (by intro he; exact hk1 he.symm), dictSet_cons, if_pos rfl]
    · by_cases hk3 : k = "includeStaff"
      · subst hk3
        refine ⟨a, b, v, rest, ?_, hnd, h1, h2, h3⟩
        rw [dictSet_cons, if_neg (by intro he; exact hk1 he.symm), dictSet_cons,
          if_neg (by intro he; exact hk2 he.symm), dictSet_cons, if_pos rfl]
      · refine ⟨a, b, c, dictSet rest k v, ?_, ?_, ?_, ?_, ?_⟩
        · rw [dictSet_cons, if_neg (by intro he; exact hk1 he.symm), dictSet_cons,
            if_neg (by intro he; exact hk2 he.symm), dictSet_cons,
            if_neg (by intro he; exact hk3 he.symm)]
        · exact nodup_keysOf_dictSet v hnd
        · exact not_mem_keysOf_dictSet v h1 (by intro he; exact hk1 he.symm)
        · exact not_mem_keysOf_dictSet v h2 (by intro he; exact hk2 he.symm)
        · exact not_mem_keysOf_dictSet v h3 (by intro he; exact hk3 he.symm)

theorem goalDictShape_pyUpdate (d : List (String × PyVal))
    {base : List (String × PyVal)} (h : GoalDictShape base) :
    GoalDictShape (pyUpdate base d) := by
  induction d generalizing base with
  | nil => exact h
  | cons kv t ih =>
    have hstep : pyUpdate base (kv :: t) = pyUpdate (dictSet base kv.1 kv.2) t := rfl
    rw [hstep]
    exact ih (goalDictShape_dictSet kv.1 kv.2 h)

theorem goalDictShape_goalBase : GoalDictShape goalBase :=
  ⟨.int 0, .dict [], .list [], [], rfl, by simp [GoalRestProps, keysOf]⟩

theorem goalDictShape_goalNorm0 (x : PyVal) : GoalDictShape (goalNorm0 x) := by
  cases x with
  | dict d => exact goalDictShape_pyUpdate d goalDictShape_goalBase
  | none => exact goalDictShape_goalBase
  | bool b => exact goalDictShape_goalBase
  | int n => exact goalDictShape_goalBase
  | float q => exact goalDictShape_goalBase
  | str s => exact goalDictShape_goalBase
  | list xs => exact goalDictShape_goalBase

theorem pyUpdate_fresh :
    ∀ (rest acc : List (String × PyVal)), (∀ k ∈ keysOf rest, k ∉ keysOf acc) →
      (keysOf rest).Nodup → pyUpdate acc rest = acc ++ rest := by
  intro rest
  induction rest with
  | nil => intro acc _ _; simp [pyUpdate]
  | cons kv t ih =>
    intro acc hdisj hnd
    rcases kv with ⟨k, v⟩
    rw [keysOf_cons] at hnd
    rcases List.nodup_cons.mp hnd with ⟨hknott, hndt⟩
    have hstep : pyUpdate acc ((k, v) :: t) = pyUpdate (dictSet acc k v) t := rfl
    have hset : dictSet acc k v = acc ++ [(k, v)] :=
      dictSet_fresh k v acc (hdisj k (by rw [keysOf_cons]; exact List.mem_cons_self _ _))
    rw [hstep, hset, ih (acc ++ [(k, v)]) ?_ hndt]
    · simp
    · intro k' hk'
      have hk'mem : k' ∈ keysOf ((k, v) :: t) := by
        rw [keysOf_cons]
        exact List.mem_cons_of_mem _ hk'
      have hk'acc : k' ∉ keysOf acc := hdisj k' hk'mem
      have hk'k : k' ≠ k := by
        intro he
        rw [he] at hk'
        exact hknott hk'
      have hkeys : keysOf (acc ++ [(k, v)]) = keysOf acc ++ [k] := by
        simp [keysOf]
      rw [hkeys]
      simp [hk'acc, hk'k]

/-! ### Idempotence of `str.strip()` -/

theorem dropWhile_dropWhile (p : Char → Bool) :
    ∀ l : List Char, (l.dropWhile p).dropWhile p = l.dropWhile p := by
  intro l
  induction l with
  | nil => rfl
  | cons x t ih =>
    by_cases h : p x = true
    · simp [List.dropWhile_cons, h, ih]
    · simp [List.dropWhile_cons, h]

theorem dropWhile_head_false (p : Char → Bool) :
    ∀ (l : List Char) (x : Char), (l.dropWhile p).head? = some x → p x = false := by
  intro l
  induction l with
  | nil => intro x h; simp at h
  | cons y t ih =>
    intro x h
    by_cases hy : p y = true
    · rw [List.dropWhile_cons, if_pos hy] at h
      exact ih x h
    · rw [List.dropWhile_cons, if_neg hy] at h
      simp at h
      subst h
      simpa using hy

theorem dropWhile_of_head_false (p : Char → Bool) {l : List Char} {x : Char}
    (hh : l.head? = some x) (hp : p x = false) : l.dropWhile p = l := by
  cases l with
  | nil => simp at hh
  | cons y t =>
    have : y = x := by simpa using hh
    subst this
    simp [List.dropWhile_cons, hp]

/-- The trailing strip: drop trailing characters satisfying `p`. -/
def tailStrip (p : Char → Bool) (l : List Char) : List Char :=
  (l.reverse.dropWhile p).reverse

theorem tailStrip_tailStrip (p : Char → Bool) (l : List Char) :
    tailStrip p (tailStrip p l) = tailStrip p l := by
  simp [tailStrip, dropWhile_dropWhile]

theorem tailStrip_head (p : Char → Bool) (l : List Char) :
    tailStrip p l = [] ∨ ∃ junk, l = tailStrip p l ++ junk := by
  cases hts : tailStrip p l with
  | nil => exact Or.inl rfl
  | cons z zs =>
    refine Or.inr ⟨(l.reverse.takeWhile p).reverse, ?_⟩
    have hsplit : l.reverse.takeWhile p ++ l.reverse.dropWhile p = l.reverse :=
      List.takeWhile_append_dropWhile p l.reverse
    have := congrArg List.reverse hsplit
    rw [List.reverse_append, List.reverse_reverse] at this
    rw [← hts]
    exact this.symm

theorem stripChars_idem (l : List Char) : stripChars (stripChars l) = stripChars l := by
  have hform : ∀ m : List Char, stripChars m = tailStrip pyIsSpace (m.dropWhile pyIsSpace) := by
    intro m
    rfl
  set p := pyIsSpace
  rw [hform, hform l]
  set m := l.dropWhile p with hm
  have hlead : (tailStrip p m).dropWhile p = tailStrip p m := by
    cases hh : (tailStrip p m).head? with
    | none =>
      have : tailStrip p m = [] := by
        cases hc : tailStrip p m with
        | nil => rfl
        | cons z zs => rw [hc] at hh; simp at hh
      rw [this]
      rfl
    | some x =>
      rcases tailStrip_head p m with hnil | ⟨junk, hjunk⟩
      · rw [hnil] at hh
        simp at hh
      · have hmhead : m.head? = some x := by
          rw [hjunk]
          cases hc : tailStrip p m with
          | nil => rw [hc] at hh; simp at hh
          | cons z zs =>
            rw [hc] at hh
            simp at hh
            simp [hc, hh]
        have hpx : p x = false := by
          rw [hm] at hmhead
          exact dropWhile_head_false p l x hmhead
        exact dropWhile_of_head_false p hh hpx
  rw [hlead, tailStrip_tailStrip]

theorem pyStrip_idem (s : String) : pyStrip (pyStrip s) = pyStrip s := by
  have htl : ∀ l : List Char, (l.asString).toList = l := by
    intro l
    rfl
  simp only [pyStrip, htl, stripChars_idem]

/-! ### The cleaned `staffTargets` and `includeStaff` values -/

/-- Invariant of a cleaned `staffTargets` dict: unique keys, all values
non-negative ints. -/
def StaffClean (l : List (String × PyVal)) : Prop :=
  (keysOf l).Nodup ∧ ∀ kv ∈ l, ∃ n : Int, kv.2 = .int n ∧ 0 ≤ n

/-- Invariant of a cleaned `includeStaff` element: a stripped non-empty
string. -/
def IncClean (u : PyVal) : Prop := ∃ s : String, u = .str s ∧ pyStrip s = s ∧ s ≠ ""

theorem dictSet_values (P : PyVal → Prop) {l : List (String × PyVal)} {k : String}
    {v : PyVal} (hl : ∀ kv ∈ l, P kv.2) (hv : P v) : ∀ kv ∈ dictSet l k v, P kv.2 := by
  induction l with
  | nil =>
    intro kv hkv
    rcases (by simpa [dictSet] using hkv : kv = (k, v)) with rfl
    exact hv
  | cons e t ih =>
    rcases e with ⟨k', v'⟩
    intro kv hkv
    by_cases hk : k' = k
    · subst hk
      rw [dictSet_cons, if_pos rfl] at hkv
      rcases List.mem_cons.mp hkv with rfl | hm
      · exact hv
      · exact hl kv (List.mem_cons_of_mem _ hm)
    · rw [dictSet_cons, if_neg hk] at hkv
      rcases List.mem_cons.mp hkv with rfl | hm
      · exact hl (k', v') (List.mem_cons_self _ _)
      · exact ih (fun e he => hl e (List.mem_cons_of_mem _ he)) kv hm

theorem cleanStaffTargets_clean (entries : List (String × PyVal)) :
    StaffClean (cleanStaffTargets entries) := by
  have hstep : ∀ (es : List (String × PyVal)) (acc : List (String × PyVal)),
      StaffClean acc →
      StaffClean (es.foldl (fun acc kv =>
        match pyInt kv.2 with
        | some n => dictSet acc kv.1 (.int (max 0 n))
        | Option.none => acc) acc) := by
    intro es
    induction es with
    | nil => intro acc h; exact h
    | cons kv t ih =>
      intro acc h
      rw [List.foldl_cons]
      cases hk : pyInt kv.2 with
      | none => exact ih acc h
      | some n =>
        refine ih (dictSet acc kv.1 (.int (max 0 n))) ⟨?_, ?_⟩
        · exact nodup_keysOf_dictSet _ h.1
        · exact dictSet_values (fun u => ∃ n : Int, u = PyVal.int n ∧ 0 ≤ n) h.2
            ⟨max 0 n, rfl, le_max_left 0 n⟩
  exact hstep entries [] ⟨by simp [keysOf], by simp⟩

theorem cleanStaffTargets_of_clean :
    ∀ sts acc : List (String × PyVal),
      (keysOf sts).Nodup → (∀ kv ∈ sts, ∃ n : Int, kv.2 = .int n ∧ 0 ≤ n) →
      (∀ k ∈ keysOf sts, k ∉ keysOf acc) →
      sts.foldl (fun acc kv =>
        match pyInt kv.2 with
        | some n => dictSet acc kv.1 (.int (max 0 n))
        | Option.none => acc) acc = acc ++ sts := by
  intro sts
  induction sts with
  | nil => intro acc _ _ _; simp
  | cons kv t ih =>
    intro acc hnd hvals hdisj
    rcases kv with ⟨k, u⟩
    rcases hvals (k, u) (List.mem_cons_self _ _) with ⟨n, hu, hn⟩
    subst hu
    rw [keysOf_cons] at hnd
    rcases List.nodup_cons.mp hnd with ⟨hknt, hndt⟩
    rw [List.foldl_cons]
    have hpy : pyInt (PyVal.int n) = some n := rfl
    rw [show (match pyInt (PyVal.int n) with
        | some n => dictSet acc k (.int (max 0 n))
        | Option.none => acc) = dictSet acc k (.int (max 0 n)) from rfl]
    have hmax : max 0 n = n := max_eq_right hn
    rw [hmax]
    have hfresh : dictSet acc k (.int n) = acc ++ [(k, .int n)] :=
      dictSet_fresh k _ acc (hdisj k (by rw [keysOf_cons]; exact List.mem_cons_self _ _))
    have hdisj2 : ∀ k' ∈ keysOf t, k' ∉ keysOf (acc ++ [(k, PyVal.int n)]) := by
      intro k' hk'
      have hk'k : k' ≠ k := by
        intro he
        rw [he] at hk'
        exact hknt hk'
      have hk'acc : k' ∉ keysOf acc :=
        hdisj k' (by rw [keysOf_cons]; exact List.mem_cons_of_mem _ hk')
      have hkeys : keysOf (acc ++ [(k, PyVal.int n)]) = keysOf acc ++ [k] := by
        simp [keysOf]
      rw [hkeys]
      simp [hk'acc, hk'k]
    have hrec := ih (acc ++ [(k, PyVal.int n)]) hndt
      (fun e he => hvals e (List.mem_cons_of_mem _ he)) hdisj2
    rw [hfresh, hrec]
    simp

theorem cleanIncludeStaff_clean (items : List PyVal) :
    ∀ u ∈ cleanIncludeStaff items, IncClean u := by
  have hstep : ∀ (is : List PyVal) (acc : List PyVal), (∀ u ∈ acc, IncClean u) →
      ∀ u ∈ is.foldl (fun acc v =>
        match v with
        | .str s => if pyStrip s = "" then acc else acc ++ [.str (pyStrip s)]
        | _ => acc) acc, IncClean u := by
    intro is
    induction is with
    | nil => intro acc h; exact h
    | cons v t ih =>
      intro acc h
      rw [List.foldl_cons]
      cases v with
      | str s =>
        dsimp only
        by_cases hs : pyStrip s = ""
        · rw [if_pos hs]
          exact ih acc h
        · rw [if_neg hs]
          refine ih _ ?_
          intro u hu
          rcases List.mem_append.mp hu with hm | hm
          · exact h u hm
          · rcases (by simpa using hm : u = .str (pyStrip s)) with rfl
            exact ⟨pyStrip s, rfl, pyStrip_idem s, hs⟩
      | none => exact ih acc h
      | bool b => exact ih acc h
      | int n => exact ih acc h
      | float q => exact ih acc h
      | list xs => exact ih acc h
      | dict d => exact ih acc h
  exact hstep items [] (by simp)

theorem cleanIncludeStaff_of_clean :
    ∀ inc acc : List PyVal, (∀ u ∈ inc, IncClean u) →
      inc.foldl (fun acc v =>
        match v with
        | .str s => if pyStrip s = "" then acc else acc ++ [.str (pyStrip s)]
        | _ => acc) acc = acc ++ inc := by
  intro inc
  induction inc with
  | nil => intro acc _; simp
  | cons u t ih =>
    intro acc hcl
    rcases hcl u (List.mem_cons_self _ _) with ⟨s, rfl, hstrip, hne⟩
    rw [List.foldl_cons]
    dsimp only
    rw [hstrip, if_neg hne, ih (acc ++ [PyVal.str s])
      (fun e he => hcl e (List.mem_cons_of_mem _ he))]
    simp

/-! ### Explicit evaluation of `normalize_goal` on a shaped dict -/

theorem dictGet_cons (k' : String) (v : PyVal) (t : List (String × PyVal)) (k : String) :
    dictGet ((k', v) :: t) k = if k' = k then some v else dictGet t k := rfl

theorem goalStoreVal_nonneg (n : List (String × PyVal)) : 0 ≤ goalStoreVal n := by
  unfold goalStoreVal
  cases pyInt (pyOrElse (obs n "storeTarget") (.int 0)) with
  | none => exact le_refl 0
  | some v => exact le_max_left 0 v

theorem goalStoreVal_int_cons (st : Int) (hst : 0 ≤ st) (t : List (String × PyVal)) :
    goalStoreVal (("storeTarget", .int st) :: t) = st := by
  unfold goalStoreVal
  have hobs : obs (("storeTarget", PyVal.int st) :: t) "storeTarget" = .int st := by
    simp [obs, dictGet_cons]
  rw [hobs]
  by_cases hz : st = 0
  · subst hz
    rfl
  · have htr : pyTruthy (PyVal.int st) = true := by
      simp [pyTruthy, hz]
    rw [show pyOrElse (PyVal.int st) (.int 0) = PyVal.int st from by
      simp [pyOrElse, htr]]
    simp [pyInt, max_eq_right hst]

theorem pyOrElse_dict_dict (sts : List (String × PyVal)) :
    pyOrElse (.dict sts) (.dict []) = .dict sts := by
  cases sts with
  | nil => rfl
  | cons e t => rfl

theorem pyOrElse_list_list (inc : List PyVal) :
    pyOrElse (.list inc) (.list []) = .list inc := by
  cases inc with
  | nil => rfl
  | cons e t => rfl

theorem normalizeGoal_explicit (x : PyVal) (a b c : PyVal) (rest : List (String × PyVal))
    (hshape : goalNorm0 x =
      ("storeTarget", a) :: ("staffTargets", b) :: ("includeStaff", c) :: rest) :
    normalizeGoal x =
      match pyOrElse b (.dict []) with
      | .dict entries =>
        (match pyIterate (pyOrElse c (.list [])) with
         | some items => .ok (.dict
             (("storeTarget", .int (goalStoreVal
                 (("storeTarget", a) :: ("staffTargets", b) :: ("includeStaff", c) ::
                   rest))) ::
               ("staffTargets", .dict (cleanStaffTargets entries)) ::
               ("includeStaff", .list (cleanIncludeStaff items)) :: rest))
         | Option.none => .error .typeError)
      | _ => .error .attributeError := by
  have hset1 : ∀ w : PyVal,
      dictSet (("storeTarget", a) :: ("staffTargets", b) :: ("includeStaff", c) :: rest)
        "storeTarget" w =
      ("storeTarget", w) :: ("staffTargets", b) :: ("includeStaff", c) :: rest := by
    intro w
    simp [dictSet_cons]
  have hobs1 : ∀ w : PyVal,
      obs (("storeTarget", w) :: ("staffTargets", b) :: ("includeStaff", c) :: rest)
        "staffTargets" = b := by
    intro w
    simp [obs, dictGet_cons]
  have hset2 : ∀ w w2 : PyVal,
      dictSet (("storeTarget", w) :: ("staffTargets", b) :: ("includeStaff", c) :: rest)
        "staffTargets" w2 =
      ("storeTarget", w) :: ("staffTargets", w2) :: ("includeStaff", c) :: rest := by
    intro w w2
    simp [dictSet_cons]
  have hobs2 : ∀ w w2 : PyVal,
      obs (("storeTarget", w) :: ("staffTargets", w2) :: ("includeStaff", c) :: rest)
        "includeStaff" = c := by
    intro w w2
    simp [obs, dictGet_cons]
  have hset3 : ∀ w w2 w3 : PyVal,
      dictSet (("storeTarget", w) :: ("staffTargets", w2) :: ("includeStaff", c) :: rest)
        "includeStaff" w3 =
      ("storeTarget", w) :: ("staffTargets", w2) :: ("includeStaff", w3) :: rest := by
    intro w w2 w3
    simp [dictSet_cons]
  simp only [normalizeGoal, hshape, hset1, hobs1, hset2, hobs2, hset3]

/-! ## C5: normalization error behavior -/

/-- The `staffTargets` value the cleaning loop will iterate (after
`normalized.update(goal)`). -/
def goalStaffRaw (x : PyVal) : PyVal := obs (goalNorm0 x) "staffTargets"

/-- The `includeStaff` value the cleaning loop will iterate. -/
def goalIncludeRaw (x : PyVal) : PyVal := obs (goalNorm0 x) "includeStaff"

/-- The `staff` value `normalize_sales` will call `.items()` on. -/
def salesStaffRaw (x : PyVal) : PyVal :=
  match x with
  | .dict d => obs d "staff"
  | _ => .dict []

/-- A value that survives `(v or {}).items()`: falsy or a mapping. -/
def MappingOrFalsy (v : PyVal) : Prop := pyTruthy v = false ∨ ∃ d, v = .dict d

/-- A value that survives `for name in (v or [])`: falsy or iterable. -/
def IterableOrFalsy (v : PyVal) : Prop :=
  pyTruthy v = false ∨ (∃ l, v = .list l) ∨ (∃ s, v = .str s) ∨ (∃ d, v = .dict d)

theorem pyOrElse_dict_of {v : PyVal} (h : MappingOrFalsy v) :
    ∃ d, pyOrElse v (.dict []) = .dict d := by
  rcases h with hf | ⟨d, rfl⟩
  · exact ⟨[], by simp [pyOrElse, hf]⟩
  · by_cases ht : pyTruthy (PyVal.dict d) = true
    · exact ⟨d, by simp [pyOrElse, ht]⟩
    · exact ⟨[], by simp [pyOrElse, ht]⟩

theorem pyIterate_pyOrElse_of {v : PyVal} (h : IterableOrFalsy v) :
    ∃ items, pyIterate (pyOrElse v (.list [])) = some items := by
  rcases h with hf | ⟨l, rfl⟩ | ⟨s, rfl⟩ | ⟨d, rfl⟩
  · exact ⟨[], by simp [pyOrElse, hf, pyIterate]⟩
  · by_cases ht : pyTruthy (PyVal.list l) = true
    · exact ⟨l, by simp [pyOrElse, ht, pyIterate]⟩
    · exact ⟨[], by simp [pyOrElse, ht, pyIterate]⟩
  · by_cases ht : pyTruthy (PyVal.str s) = true
    · exact ⟨s.toList.map (fun ch => PyVal.str (String.singleton ch)),
        by simp [pyOrElse, ht, pyIterate]⟩
    · exact ⟨[], by simp [pyOrElse, ht, pyIterate]⟩
  · by_cases ht : pyTruthy (PyVal.dict d) = true
    · exact ⟨d.map (fun kv => PyVal.str kv.1), by simp [pyOrElse, ht, pyIterate]⟩
    · exact ⟨[], by simp [pyOrElse, ht, pyIterate]⟩

/-- Claim C5 counterexample: `normalize_goal` raises an uncaught
`AttributeError` on the payload `{"staffTargets": 7}` (the truthy
non-dict reaches `.items()`), and `normalize_sales` likewise on
`{"staff": 7}` — normalization is not error-free on every input. -/
theorem C5_counterexample :
    normalizeGoal (.dict [("staffTargets", .int 7)]) = .error .attributeError ∧
      normalizeSales (.dict [("staff", .int 7)]) = .error .attributeError := by
  exact ⟨rfl, rfl⟩

/-- Claim C5 (corrected): `normalize_goal` returns a normalized dict
without raising whenever the (post-update) `staffTargets` field is falsy
or a mapping and the `includeStaff` field is falsy or iterable, and
`normalize_sales` whenever its `staff` field is falsy or a mapping;
outside those conditions the uncaught `AttributeError`/`TypeError` of
`C5_counterexample` occurs.  Malformed leaf values still degrade to
defaults rather than failing. -/
theorem C5_normalization_no_error (x : PyVal) :
    (MappingOrFalsy (goalStaffRaw x) → IterableOrFalsy (goalIncludeRaw x) →
      ∃ v, normalizeGoal x = .ok v) ∧
    (MappingOrFalsy (salesStaffRaw x) → ∃ v, normalizeSales x = .ok v) := by
  constructor
  · intro hstaff hinc
    rcases goalDictShape_goalNorm0 x with ⟨a, b, c, rest, hsh, hrest⟩
    have hb : goalStaffRaw x = b := by
      rw [goalStaffRaw, hsh]
      simp [obs, dictGet_cons]
    have hc : goalIncludeRaw x = c := by
      rw [goalIncludeRaw, hsh]
      simp [obs, dictGet_cons]
    rw [hb] at hstaff
    rw [hc] at hinc
    rcases pyOrElse_dict_of hstaff with ⟨entries, he⟩
    rcases pyIterate_pyOrElse_of hinc with ⟨items, hi⟩
    rw [normalizeGoal_explicit x a b c rest hsh, he]
    dsimp only
    rw [hi]
    exact ⟨_, rfl⟩
  · intro hstaff
    cases x with
    | dict d =>
      have hs : salesStaffRaw (.dict d) = obs d "staff" := rfl
      rw [hs] at hstaff
      rcases pyOrElse_dict_of hstaff with ⟨entries, he⟩
      simp only [normalizeSales, he]
      exact ⟨_, rfl⟩
    | none => exact ⟨_, rfl⟩
    | bool b => exact ⟨_, rfl⟩
    | int n => exact ⟨_, rfl⟩
    | float q => exact ⟨_, rfl⟩
    | str s => exact ⟨_, rfl⟩
    | list xs => exact ⟨_, rfl⟩

/-- Witness: both parts of `C5_normalization_no_error` at concrete
payloads. -/
theorem C5_normalization_no_error_witness :
    (∃ v, normalizeGoal (.dict [("storeTarget", .int 5)]) = .ok v) ∧
      ∃ v, normalizeSales (.dict []) = .ok v := by
  exact ⟨(C5_normalization_no_error (.dict [("storeTarget", .int 5)])).1
      (Or.inl rfl) (Or.inl rfl),
    (C5_normalization_no_error (.dict [])).2 (Or.inl rfl)⟩

/-! ## C6: idempotence of `normalize_goal` -/

theorem normalizeGoal_fix {x v : PyVal} (h : normalizeGoal x = .ok v) :
    normalizeGoal v = .ok v := by
  rcases goalDictShape_goalNorm0 x with ⟨a, b, c, rest, hsh, hnd, hr1, hr2, hr3⟩
  rw [normalizeGoal_explicit x a b c rest hsh] at h
  cases hb : pyOrElse b (.dict []) with
  | dict entries =>
    rw [hb] at h
    dsimp only at h
    cases hi : pyIterate (pyOrElse c (.list [])) with
    | none => rw [hi] at h; simp at h
    | some items =>
      rw [hi] at h
      dsimp only at h
      injection h with h2
      set st := goalStoreVal
        (("storeTarget", a) :: ("staffTargets", b) :: ("includeStaff", c) :: rest) with hstdef
      set sts := cleanStaffTargets entries with hstsdef
      set inc := cleanIncludeStaff items with hincdef
      have hstnn : 0 ≤ st := goalStoreVal_nonneg _
      have hshape2 : goalNorm0 v =
          ("storeTarget", PyVal.int st) :: ("staffTargets", PyVal.dict sts) ::
            ("includeStaff", PyVal.list inc) :: rest := by
        rw [← h2]
        show pyUpdate goalBase
            (("storeTarget", PyVal.int st) :: ("staffTargets", PyVal.dict sts) ::
              ("includeStaff", PyVal.list inc) :: rest) = _
        have hu1 : pyUpdate goalBase
            (("storeTarget", PyVal.int st) :: ("staffTargets", PyVal.dict sts) ::
              ("includeStaff", PyVal.list inc) :: rest) =
            pyUpdate [("storeTarget", PyVal.int st), ("staffTargets", PyVal.dict sts),
              ("includeStaff", PyVal.list inc)] rest := rfl
        have hdisj3 : ∀ k ∈ keysOf rest,
            k ∉ keysOf [("storeTarget", PyVal.int st), ("staffTargets", PyVal.dict sts),
              ("includeStaff", PyVal.list inc)] := by
          intro k hk
          have hne1 : k ≠ "storeTarget" := fun he => hr1 (he ▸ hk)
          have hne2 : k ≠ "staffTargets" := fun he => hr2 (he ▸ hk)
          have hne3 : k ≠ "includeStaff" := fun he => hr3 (he ▸ hk)
          simp [keysOf, hne1, hne2, hne3]
        rw [hu1, pyUpdate_fresh rest _ hdisj3 hnd]
        rfl
      rw [normalizeGoal_explicit v (PyVal.int st) (PyVal.dict sts) (PyVal.list inc) rest
        hshape2, pyOrElse_dict_dict]
      dsimp only
      rw [pyOrElse_list_list]
      rw [show pyIterate (PyVal.list inc) = some inc from rfl]
      rw [goalStoreVal_int_cons st hstnn]
      have hsts : cleanStaffTargets sts = sts := by
        rcases cleanStaffTargets_clean entries with ⟨hnds, hvals⟩
        rw [← hstsdef] at hnds hvals
        exact cleanStaffTargets_of_clean sts [] hnds hvals (by simp [keysOf])
      have hinc : cleanIncludeStaff inc = inc := by
        have := cleanIncludeStaff_clean items
        rw [← hincdef] at this
        exact cleanIncludeStaff_of_clean inc [] this
      dsimp only
      rw [hsts, hinc, h2]
  | none => rw [hb] at h; simp at h
  | bool b2 => rw [hb] at h; simp at h
  | int n => rw [hb] at h; simp at h
  | float q => rw [hb] at h; simp at h
  | str s => rw [hb] at h; simp at h
  | list xs => rw [hb] at h; simp at h

/-- Claim C6 (confirmed): `normalize_goal` is idempotent — composing it
with itself (in the `Except` monad) equals a single application, for
every input, including dicts carrying extra keys. -/
theorem C6_normalize_goal_idempotent (x : PyVal) :
    Except.bind (normalizeGoal x) normalizeGoal = normalizeGoal x := by
  cases hn : normalizeGoal x with
  | error e => rfl
  | ok v =>
    show normalizeGoal v = Except.ok v
    exact normalizeGoal_fix hn

/-! ## C9: idempotence of `reassign_case_numbers`

The tuple comparison `reassignKeyLE` is a total preorder; the lemmas
below establish that level by level. -/

theorem strLT_trans {a b c : String} (h1 : strLT a b = true) (h2 : strLT b c = true) :
    strLT a c = true := charListLT_trans h1 h2

theorem strLT_irrefl (a : String) : strLT a a = false := charListLT_irrefl

theorem strLT_connex {a b : String} (h1 : strLT a b = false) (h2 : strLT b a = false) :
    a = b := string_toList_inj (charListLT_connex h1 h2)

/-- Transitivity of one string level of a lexicographic tuple
comparison, given transitivity across the remaining levels. -/
theorem lexStrLevel_trans {x y z : String} {rab rbc rac : Bool}
    (hr : rab = true → rbc = true → rac = true)
    (hab : (if strLT x y then true else if strLT y x then false else rab) = true)
    (hbc : (if strLT y z then true else if strLT z y then false else rbc) = true) :
    (if strLT x z then true else if strLT z x then false else rac) = true := by
  by_cases h1 : strLT x y = true
  · by_cases h2 : strLT y z = true
    · rw [if_pos (strLT_trans h1 h2)]
    · rw [if_neg h2] at hbc
      by_cases h3 : strLT z y = true
      · rw [if_pos h3] at hbc
        exact absurd hbc (by simp)
      · have hyz : y = z := strLT_connex (by simpa using h2) (by simpa using h3)
        subst hyz
        rw [if_pos h1]
  · rw [if_neg h1] at hab
    by_cases h1' : strLT y x = true
    · rw [if_pos h1'] at hab
      exact absurd hab (by simp)
    · rw [if_neg h1'] at hab
      have hxy : x = y := strLT_connex (by simpa using h1) (by simpa using h1')
      subst hxy
      by_cases h2 : strLT x z = true
      · rw [if_pos h2]
      · rw [if_neg h2] at hbc ⊢
        by_cases h3 : strLT z x = true
        · rw [if_pos h3] at hbc
          exact absurd hbc (by simp)
        · rw [if_neg h3] at hbc ⊢
          exact hr hab hbc

/-- Transitivity of one natural-number level of a lexicographic tuple
comparison. -/
theorem lexNatLevel_trans {x y z : Nat} {rab rbc rac : Bool}
    (hr : rab = true → rbc = true → rac = true)
    (hab : (if x < y then true else if y < x then false else rab) = true)
    (hbc : (if y < z then true else if z < y then false else rbc) = true) :
    (if x < z then true else if z < x then false else rac) = true := by
  by_cases h1 : x < y
  · by_cases h2 : y < z
    · rw [if_pos (lt_trans h1 h2)]
    · rw [if_neg h2] at hbc
      by_cases h3 : z < y
      · rw [if_pos h3] at hbc
        exact absurd hbc (by simp)
      · have hyz : y = z := by omega
        subst hyz
        rw [if_pos h1]
  · rw [if_neg h1] at hab
    by_cases h1' : y < x
    · rw [if_pos h1'] at hab
      exact absurd hab (by simp)
    · rw [if_neg h1'] at hab
      have hxy : x = y := by omega
      subst hxy
      by_cases h2 : x < z
      · rw [if_pos h2]
      · rw [if_neg h2] at hbc ⊢
        by_cases h3 : z < x
        · rw [if_pos h3] at hbc
          exact absurd hbc (by simp)
        · rw [if_neg h3] at hbc ⊢
          exact hr hab hbc

/-- Totality of one string level of a lexicographic tuple comparison. -/
theorem lexStrLevel_tot {x y : String} {rab rba : Bool}
    (hr : rab = false → rba = true)
    (h : (if strLT x y then true else if strLT y x then false else rab) = false) :
    (if strLT y x then true else if strLT x y then false else rba) = true := by
  by_cases h1 : strLT x y = true
  · rw [if_pos h1] at h
    exact absurd h (by simp)
  · rw [if_neg h1] at h
    by_cases h2 : strLT y x = true
    · rw [if_pos h2]
    · rw [if_neg h2] at h
      rw [if_neg h2, if_neg h1]
      exact hr h

/-- Totality of one natural-number level of a lexicographic tuple
comparison. -/
theorem lexNatLevel_tot {x y : Nat} {rab rba : Bool}
    (hr : rab = false → rba = true)
    (h : (if x < y then true else if y < x then false else rab) = false) :
    (if y < x then true else if x < y then false else rba) = true := by
  by_cases h1 : x < y
  · rw [if_pos h1] at h
    exact absurd h (by simp)
  · rw [if_neg h1] at h
    by_cases h2 : y < x
    · rw [if_pos h2]
    · rw [if_neg h2] at h
      rw [if_neg h2, if_neg h1]
      exact hr h

theorem reassignKeyLE_trans {a b c : Customer} (hab : reassignKeyLE a b = true)
    (hbc : reassignKeyLE b c = true) : reassignKeyLE a c = true := by
  unfold reassignKeyLE at hab hbc ⊢
  exact lexStrLevel_trans
    (fun h1 h2 => lexNatLevel_trans
      (fun h3 h4 => lexStrLevel_trans (fun h5 h6 => strLE_trans h5 h6) h3 h4) h1 h2)
    hab hbc

theorem reassignKeyLE_tot {a b : Customer} (h : reassignKeyLE a b = false) :
    reassignKeyLE b a = true := by
  unfold reassignKeyLE at h ⊢
  exact lexStrLevel_tot
    (fun h1 => lexNatLevel_tot
      (fun h2 => lexStrLevel_tot (fun h3 => strLE_of_not_strLE h3) h2) h1) h

/-- Canonical digit worker call: `natDigitsGo` with the fuel equal to the
number itself. -/
def digitsCore (n : Nat) : List Char := natDigitsGo n n []

/-- Any sufficient fuel computes the canonical digit list onto the
accumulator. -/
theorem natDigitsGo_spec :
    ∀ (n fuel : Nat), n ≤ fuel → ∀ (acc : List Char),
      natDigitsGo fuel n acc = natDigitsGo n n [] ++ acc := by
  intro n
  induction n using Nat.strong_induction_on with
  | _ n ih =>
    intro fuel hf acc
    cases n with
    | zero =>
      cases fuel with
      | zero => rfl
      | succ f => simp [natDigitsGo]
    | succ m =>
      cases fuel with
      | zero => exact absurd hf (by omega)
      | succ f =>
        have e1 : natDigitsGo (f + 1) (m + 1) acc =
            natDigitsGo f ((m + 1) / 10) (Nat.digitChar ((m + 1) % 10) :: acc) := rfl
        have e2 : natDigitsGo (m + 1) (m + 1) [] =
            natDigitsGo m ((m + 1) / 10) [Nat.digitChar ((m + 1) % 10)] := rfl
        have hdiv : (m + 1) / 10 < m + 1 := Nat.div_lt_self (by omega) (by omega)
        rw [e1, e2, ih ((m + 1) / 10) hdiv f (by omega) _, ih ((m + 1) / 10) hdiv m (by omega) _]
        simp

/-- Peeling the least significant digit off the canonical digit list. -/
theorem digitsCore_succ (m : Nat) :
    digitsCore (m + 1) = digitsCore ((m + 1) / 10) ++ [Nat.digitChar ((m + 1) % 10)] := by
  have e2 : natDigitsGo (m + 1) (m + 1) [] =
      natDigitsGo m ((m + 1) / 10) [Nat.digitChar ((m + 1) % 10)] := rfl
  have hdiv : (m + 1) / 10 < m + 1 := Nat.div_lt_self (by omega) (by omega)
  show natDigitsGo (m + 1) (m + 1) [] = _
  rw [e2, natDigitsGo_spec ((m + 1) / 10) m (by omega) _]
  rfl

theorem digitChar_isDigit {d : Nat} (h : d < 10) : (Nat.digitChar d).isDigit = true := by
  interval_cases d <;> decide

theorem digitChar_toNat {d : Nat} (h : d < 10) : (Nat.digitChar d).toNat - 48 = d := by
  interval_cases d <;> decide

theorem digitsVal_snoc (l : List Char) (c : Char) :
    digitsVal (l ++ [c]) = digitsVal l * 10 + (c.toNat - 48) := by
  unfold digitsVal
  rw [List.foldl_append]
  rfl

theorem digitsCore_all_isDigit : ∀ n : Nat, (digitsCore n).all Char.isDigit = true := by
  intro n
  induction n using Nat.strong_induction_on with
  | _ n ih =>
    cases n with
    | zero => rfl
    | succ m =>
      rw [digitsCore_succ, List.all_append,
        ih ((m + 1) / 10) (Nat.div_lt_self (by omega) (by omega))]
      simp [digitChar_isDigit (Nat.mod_lt (m + 1) (by omega))]

theorem digitsVal_digitsCore : ∀ n : Nat, digitsVal (digitsCore n) = n := by
  intro n
  induction n using Nat.strong_induction_on with
  | _ n ih =>
    cases n with
    | zero => rfl
    | succ m =>
      rw [digitsCore_succ, digitsVal_snoc,
        ih ((m + 1) / 10) (Nat.div_lt_self (by omega) (by omega)),
        digitChar_toNat (Nat.mod_lt (m + 1) (by omega))]
      omega

theorem digitsCore_length_le : ∀ (n k : Nat), n < 10 ^ k → (digitsCore n).length ≤ k := by
  intro n
  induction n using Nat.strong_induction_on with
  | _ n ih =>
    intro k hk
    cases n with
    | zero => simp [digitsCore, natDigitsGo]
    | succ m =>
      cases k with
      | zero =>
        rw [pow_zero] at hk
        omega
      | succ j =>
        rw [digitsCore_succ, List.length_append]
        have hq : (m + 1) / 10 < 10 ^ j :=
          Nat.div_lt_of_lt_mul (by rw [mul_comm, ← pow_succ]; exact hk)
        have hlq := ih ((m + 1) / 10) (Nat.div_lt_self (by omega) (by omega)) j hq
        simp only [List.length_singleton]
        omega

theorem natDigits_pos {n : Nat} (h : 1 ≤ n) : natDigits n = digitsCore n := by
  unfold natDigits digitsCore
  rw [if_neg (by omega)]

theorem padNum_data (w n : Nat) :
    (padNum w n).toList = List.replicate (w - (natDigits n).length) '0' ++ natDigits n := rfl

theorem replicate_zero_all_isDigit (j : Nat) :
    (List.replicate j '0').all Char.isDigit = true := by
  induction j with
  | zero => rfl
  | succ i ih =>
    rw [List.replicate_succ, List.all_cons, ih]
    decide

theorem digitsVal_replicate_zero (j : Nat) (l : List Char) :
    digitsVal (List.replicate j '0' ++ l) = digitsVal l := by
  unfold digitsVal
  rw [List.foldl_append]
  have h0 : List.foldl (fun a c => a * 10 + (c.toNat - 48)) 0 (List.replicate j '0') = 0 := by
    induction j with
    | zero => rfl
    | succ i ih =>
      simp only [List.replicate_succ, List.foldl_cons]
      have he : 0 * 10 + ('0'.toNat - 48) = 0 := by decide
      rw [he]
      exact ih
  rw [h0]

/-- `case_seq` on a non-empty all-digit 4-suffix reads off that suffix. -/
theorem caseSeq_eq {v : String} (hne : ¬ v = "")
    (h4 : 4 ≤ v.toList.length)
    (hdig : (v.toList.drop (v.toList.length - 4)).all Char.isDigit = true) :
    caseSeq v = digitsVal (v.toList.drop (v.toList.length - 4)) := by
  unfold caseSeq
  rw [if_neg hne]
  show (if 4 ≤ v.toList.length ∧ (v.toList.drop (v.toList.length - 4)).all Char.isDigit
      then digitsVal (v.toList.drop (v.toList.length - 4)) else 9999) = _
  rw [if_pos ⟨h4, hdig⟩]

/-- For `1 ≤ k ≤ 9999`, the trailing-4-digit suffix of `p ++ f"{k:04d}"`
is `k` again, whatever the prefix. -/
theorem caseSeq_pad (p : String) {k : Nat} (h1 : 1 ≤ k) (h2 : k ≤ 9999) :
    caseSeq (p ++ padNum 4 k) = k := by
  have hlen4 : (natDigits k).length ≤ 4 := by
    rw [natDigits_pos h1]
    exact digitsCore_length_le k 4 (by omega)
  have hd : (p ++ padNum 4 k).toList =
      p.toList ++ (List.replicate (4 - (natDigits k).length) '0' ++ natDigits k) := by
    simp only [String.toList, String.data_append]
    rw [show (padNum 4 k).data =
        List.replicate (4 - (natDigits k).length) '0' ++ natDigits k from rfl]
  have hplen : (List.replicate (4 - (natDigits k).length) '0' ++ natDigits k).length = 4 := by
    rw [List.length_append, List.length_replicate]
    omega
  have hvlen : (p ++ padNum 4 k).toList.length = p.toList.length + 4 := by
    rw [hd, List.length_append, hplen]
  have hne : ¬ (p ++ padNum 4 k) = "" := by
    intro h
    have h0 : (p ++ padNum 4 k).toList = [] := by rw [h]; rfl
    rw [h0] at hvlen
    simp at hvlen
  have hdrop : (p ++ padNum 4 k).toList.drop ((p ++ padNum 4 k).toList.length - 4) =
      List.replicate (4 - (natDigits k).length) '0' ++ natDigits k := by
    rw [hvlen, hd, show p.toList.length + 4 - 4 = p.toList.length from by omega]
    exact List.drop_left p.toList _
  have hdig : ((p ++ padNum 4 k).toList.drop ((p ++ padNum 4 k).toList.length - 4)).all
      Char.isDigit = true := by
    rw [hdrop, List.all_append, replicate_zero_all_isDigit, natDigits_pos h1,
      digitsCore_all_isDigit]
    rfl
  rw [caseSeq_eq hne (by omega) hdig, hdrop, digitsVal_replicate_zero,
    natDigits_pos h1, digitsVal_digitsCore]

theorem numberFrom_mem (p : String) :
    ∀ (t : List Customer) (k : Nat) (z : Customer), z ∈ numberFrom p k t →
      ∃ y j, y ∈ t ∧ k ≤ j ∧ j < k + t.length ∧
        z = { y with caseNumber := p ++ padNum 4 j } := by
  intro t
  induction t with
  | nil =>
    intro k z hz
    simp [numberFrom] at hz
  | cons c t ih =>
    intro k z hz
    rw [show numberFrom p k (c :: t) =
      { c with caseNumber := p ++ padNum 4 k } :: numberFrom p (k + 1) t from rfl] at hz
    rcases List.mem_cons.mp hz with rfl | hz
    · exact ⟨c, k, by simp, le_refl k, by simp, rfl⟩
    · rcases ih (k + 1) z hz with ⟨y, j, hy, hkj, hjl, hzj⟩
      refine ⟨y, j, by simp [hy], by omega, ?_, hzj⟩
      simp only [List.length_cons]
      omega

/-- Renumbering respects the sort key: a pair already in key order, given
strictly increasing sequence numbers in the padded range, stays in key
order (the shared date survives, and the fresh 4-digit suffixes decide
the comparison at the sequence level). -/
theorem reassignKeyLE_renumbered {x y : Customer} (p : String) {i j : Nat}
    (hxy : reassignKeyLE x y = true) (h1i : 1 ≤ i) (hij : i < j) (hj : j ≤ 9999) :
    reassignKeyLE { x with caseNumber := p ++ padNum 4 i }
      { y with caseNumber := p ++ padNum 4 j } = true := by
  have hdx : reassignDate { x with caseNumber := p ++ padNum 4 i } = reassignDate x := rfl
  have hdy : reassignDate { y with caseNumber := p ++ padNum 4 j } = reassignDate y := rfl
  unfold reassignKeyLE at hxy ⊢
  rw [hdx, hdy]
  by_cases h1 : strLT (reassignDate x) (reassignDate y) = true
  · rw [if_pos h1]
  · rw [if_neg h1] at hxy ⊢
    by_cases h2 : strLT (reassignDate y) (reassignDate x) = true
    · rw [if_pos h2] at hxy
      exact absurd hxy (by simp)
    · rw [if_neg h2]
      have hcx : ({ x with caseNumber := p ++ padNum 4 i } : Customer).caseNumber =
          p ++ padNum 4 i := rfl
      have hcy : ({ y with caseNumber := p ++ padNum 4 j } : Customer).caseNumber =
          p ++ padNum 4 j := rfl
      rw [hcx, hcy, caseSeq_pad p h1i (by omega), caseSeq_pad p (by omega) hj, if_pos hij]

theorem numberFrom_pairwise (p : String) :
    ∀ (t : List Customer) (k : Nat), 1 ≤ k → k + t.length ≤ 10000 →
      t.Pairwise (fun a b => reassignKeyLE a b = true) →
      (numberFrom p k t).Pairwise (fun a b => reassignKeyLE a b = true) := by
  intro t
  induction t with
  | nil =>
    intro k _ _ _
    exact List.Pairwise.nil
  | cons c t ih =>
    intro k hk hlen hp
    rcases List.pairwise_cons.mp hp with ⟨hc, ht⟩
    rw [show numberFrom p k (c :: t) =
      { c with caseNumber := p ++ padNum 4 k } :: numberFrom p (k + 1) t from rfl]
    have hlen' : k + 1 + t.length ≤ 10000 := by
      simp only [List.length_cons] at hlen
      omega
    refine List.pairwise_cons.mpr ⟨?_, ih (k + 1) (by omega) hlen' ht⟩
    intro z hz
    rcases numberFrom_mem p t (k + 1) z hz with ⟨y, j, hy, hkj, hjl, rfl⟩
    exact reassignKeyLE_renumbered p (hc y hy) hk (by omega) (by omega)

theorem numberFrom_numberFrom (p : String) :
    ∀ (t : List Customer) (k : Nat),
      numberFrom p k (numberFrom p k t) = numberFrom p k t := by
  intro t
  induction t with
  | nil =>
    intro k
    rfl
  | cons c t ih =>
    intro k
    show { c with caseNumber := p ++ padNum 4 k } ::
        numberFrom p (k + 1) (numberFrom p (k + 1) t) =
      { c with caseNumber := p ++ padNum 4 k } :: numberFrom p (k + 1) t
    rw [ih (k + 1)]

/-- A pass applied to an already renumbered non-empty key-sorted batch
just renumbers it again. -/
theorem reassign_of_numberFrom (category : String) (year : Nat) (p : String)
    (z : Customer) (zs : List Customer)
    (hp : (numberFrom p 1 (z :: zs)).Pairwise (fun a b => reassignKeyLE a b = true)) :
    reassignCaseNumbers category year (numberFrom p 1 (z :: zs)) =
      numberFrom (categoryPfx category ++ yearShort year) 1 (numberFrom p 1 (z :: zs)) := by
  unfold reassignCaseNumbers
  rw [show numberFrom p 1 (z :: zs) =
    { z with caseNumber := p ++ padNum 4 1 } :: numberFrom p 2 zs from rfl]
  rw [if_neg (by simp)]
  rw [← show numberFrom p 1 (z :: zs) =
    { z with caseNumber := p ++ padNum 4 1 } :: numberFrom p 2 zs from rfl]
  rw [sortS_of_pairwise hp]

/-- Claim C9 (corrected): `reassign_case_numbers` is idempotent on every
partition of at most 9999 records — running the pass (stable sort by the
tuple key, then rewriting the k-th record's case number to
`{prefix}{yearSuffix}{k:04d}`) twice produces the same assignment as
running it once.  The bound is needed: at 10000 records the last record's
suffix `"10000"` reads back as sequence 0, so the claim as stated, over
every partition, is refuted by the 10000-record counterexample. -/
theorem C9_reassign_idempotent (category : String) (year : Nat)
    (customers : List Customer) (h : customers.length ≤ 9999) :
    reassignCaseNumbers category year (reassignCaseNumbers category year customers) =
      reassignCaseNumbers category year customers := by
  cases customers with
  | nil => rfl
  | cons c0 t0 =>
    have htrans : ∀ a b c : Customer, reassignKeyLE a b = true → reassignKeyLE b c = true →
        reassignKeyLE a c = true := fun a b c h1 h2 => reassignKeyLE_trans h1 h2
    have htot : ∀ a b : Customer, reassignKeyLE a b = false → reassignKeyLE b a = true :=
      fun a b h1 => reassignKeyLE_tot h1
    have e1 : reassignCaseNumbers category year (c0 :: t0) =
        numberFrom (categoryPfx category ++ yearShort year) 1
          (sortS reassignKeyLE (c0 :: t0)) := by
      unfold reassignCaseNumbers
      rw [if_neg (by simp)]
    have hlen1 : (sortS reassignKeyLE (c0 :: t0)).length = (c0 :: t0).length :=
      (sortS_perm reassignKeyLE (c0 :: t0)).length_eq
    have hpair1 := sortS_pairwise htrans htot (c0 :: t0)
    have hpout : (numberFrom (categoryPfx category ++ yearShort year) 1
        (sortS reassignKeyLE (c0 :: t0))).Pairwise (fun a b => reassignKeyLE a b = true) := by
      refine numberFrom_pairwise _ _ 1 (le_refl 1) ?_ hpair1
      rw [hlen1]
      simp only [List.length_cons] at h ⊢
      omega
    have hone : ∃ z zs, sortS reassignKeyLE (c0 :: t0) = z :: zs := by
      cases hs : sortS reassignKeyLE (c0 :: t0) with
      | nil =>
        rw [hs] at hlen1
        simp at hlen1
      | cons z zs => exact ⟨z, zs, rfl⟩
    rcases hone with ⟨z, zs, hz⟩
    rw [e1, hz]
    have hpout' : (numberFrom (categoryPfx category ++ yearShort year) 1 (z :: zs)).Pairwise
        (fun a b => reassignKeyLE a b = true) := by
      rw [← hz]
      exact hpout
    rw [reassign_of_numberFrom category year _ z zs hpout']
    exact numberFrom_numberFrom _ (z :: zs) 1

/-- Witness: the bounded idempotence theorem applied to a concrete
two-record partition. -/
theorem C9_reassign_idempotent_witness :
    ([(⟨"a", "2025-04-02", "", ""⟩ : Customer), ⟨"b", "2025-04-01", "", ""⟩] : List Customer).length ≤ 9999 ∧
      reassignCaseNumbers "sell" 2025 (reassignCaseNumbers "sell" 2025
        [(⟨"a", "2025-04-02", "", ""⟩ : Customer), ⟨"b", "2025-04-01", "", ""⟩]) =
        reassignCaseNumbers "sell" 2025
          [(⟨"a", "2025-04-02", "", ""⟩ : Customer), ⟨"b", "2025-04-01", "", ""⟩] :=
  ⟨by decide, C9_reassign_idempotent "sell" 2025 _ (by decide)⟩

/-- One record of the refuting batch: a common inquiry date, no case
number yet, ids distinct. -/
def c9Mk (i : Nat) : Customer := ⟨padNum 5 i, "2025-01-01", "", ""⟩

/-- `n` such records, ids counting up from `s`. -/
def c9Build : Nat → Nat → List Customer
  | _, 0 => []
  | s, n + 1 => c9Mk s :: c9Build (s + 1) n

/-- The batch breaking idempotence: 10000 records in one partition. -/
def c9List : List Customer := c9Build 0 10000

/-- The renumbered form of the batch: ids from `s`, sequence numbers
from `k`. -/
def c9NumBuild (p : String) : Nat → Nat → Nat → List Customer
  | _, _, 0 => []
  | s, k, n + 1 =>
    { c9Mk s with caseNumber := p ++ padNum 4 k } :: c9NumBuild p (s + 1) (k + 1) n

theorem c9Build_le (i j : Nat) : reassignKeyLE (c9Mk i) (c9Mk j) = true := rfl

theorem c9Build_mem : ∀ (n s : Nat) (z : Customer), z ∈ c9Build s n → ∃ i, z = c9Mk i := by
  intro n
  induction n with
  | zero =>
    intro s z hz
    simp [c9Build] at hz
  | succ m ih =>
    intro s z hz
    rw [show c9Build s (m + 1) = c9Mk s :: c9Build (s + 1) m from rfl] at hz
    rcases List.mem_cons.mp hz with rfl | hz
    · exact ⟨s, rfl⟩
    · exact ih (s + 1) z hz

theorem c9Build_pairwise : ∀ (n s : Nat),
    (c9Build s n).Pairwise (fun a b => reassignKeyLE a b = true) := by
  intro n
  induction n with
  | zero =>
    intro s
    exact List.Pairwise.nil
  | succ m ih =>
    intro s
    rw [show c9Build s (m + 1) = c9Mk s :: c9Build (s + 1) m from rfl]
    refine List.pairwise_cons.mpr ⟨?_, ih (s + 1)⟩
    intro z hz
    rcases c9Build_mem m (s + 1) z hz with ⟨i, rfl⟩
    exact c9Build_le s i

theorem c9Build_length : ∀ (n s : Nat), (c9Build s n).length = n := by
  intro n
  induction n with
  | zero =>
    intro s
    rfl
  | succ m ih =>
    intro s
    rw [show c9Build s (m + 1) = c9Mk s :: c9Build (s + 1) m from rfl, List.length_cons,
      ih (s + 1)]

theorem numberFrom_c9Build (p : String) :
    ∀ (n s k : Nat), numberFrom p k (c9Build s n) = c9NumBuild p s k n := by
  intro n
  induction n with
  | zero =>
    intro s k
    rfl
  | succ m ih =>
    intro s k
    have e : numberFrom p k (c9Build s (m + 1)) =
        { c9Mk s with caseNumber := p ++ padNum 4 k } ::
          numberFrom p (k + 1) (c9Build (s + 1) m) := rfl
    have e2 : c9NumBuild p s k (m + 1) =
        { c9Mk s with caseNumber := p ++ padNum 4 k } ::
          c9NumBuild p (s + 1) (k + 1) m := rfl
    rw [e, e2, ih (s + 1) (k + 1)]

theorem c9NumBuild_snoc (p : String) : ∀ (n s k : Nat),
    c9NumBuild p s k (n + 1) = c9NumBuild p s k n ++
      [{ c9Mk (s + n) with caseNumber := p ++ padNum 4 (k + n) }] := by
  intro n
  induction n with
  | zero =>
    intro s k
    rfl
  | succ m ih =>
    intro s k
    have e1 : c9NumBuild p s k (m + 1 + 1) =
        { c9Mk s with caseNumber := p ++ padNum 4 k } ::
          c9NumBuild p (s + 1) (k + 1) (m + 1) := rfl
    have e2 : c9NumBuild p s k (m + 1) =
        { c9Mk s with caseNumber := p ++ padNum 4 k } ::
          c9NumBuild p (s + 1) (k + 1) m := rfl
    rw [e1, ih (s + 1) (k + 1), e2,
      show s + 1 + m = s + (m + 1) from by omega,
      show k + 1 + m = k + (m + 1) from by omega]
    rfl

theorem c9NumBuild_mem (p : String) : ∀ (n s k : Nat) (z : Customer),
    z ∈ c9NumBuild p s k n → ∃ t, t < n ∧
      z = { c9Mk (s + t) with caseNumber := p ++ padNum 4 (k + t) } := by
  intro n
  induction n with
  | zero =>
    intro s k z hz
    simp [c9NumBuild] at hz
  | succ m ih =>
    intro s k z hz
    rw [show c9NumBuild p s k (m + 1) =
      { c9Mk s with caseNumber := p ++ padNum 4 k } ::
        c9NumBuild p (s + 1) (k + 1) m from rfl] at hz
    rcases List.mem_cons.mp hz with rfl | hz
    · exact ⟨0, by omega, rfl⟩
    · rcases ih (s + 1) (k + 1) z hz with ⟨t, htn, rfl⟩
      refine ⟨t + 1, by omega, ?_⟩
      rw [show s + (t + 1) = s + 1 + t from by omega,
        show k + (t + 1) = k + 1 + t from by omega]

/-- With equal first key components the comparison is monotone in the
sequence number. -/
theorem reassignKeyLE_seq_le {a b : Customer} (hd : reassignDate a = reassignDate b)
    (h : reassignKeyLE a b = true) : caseSeq a.caseNumber ≤ caseSeq b.caseNumber := by
  unfold reassignKeyLE at h
  rw [hd, strLT_irrefl, if_neg Bool.false_ne_true, if_neg Bool.false_ne_true] at h
  by_cases h1 : caseSeq a.caseNumber < caseSeq b.caseNumber
  · omega
  · rw [if_neg h1] at h
    by_cases h2 : caseSeq b.caseNumber < caseSeq a.caseNumber
    · rw [if_pos h2] at h
      exact absurd h (by simp)
    · omega

/-- With equal first key components a strictly smaller sequence number
decides the comparison. -/
theorem reassignKeyLE_of_seq_lt {a b : Customer} (hd : reassignDate a = reassignDate b)
    (hs : caseSeq a.caseNumber < caseSeq b.caseNumber) : reassignKeyLE a b = true := by
  unfold reassignKeyLE
  rw [hd, strLT_irrefl, if_neg Bool.false_ne_true, if_neg Bool.false_ne_true, if_pos hs]

/-- The sequence read back from the `t`-th record of the renumbered
batch: the assigned rank `1 + t`, except that the 10000th record's
five-digit suffix reads back as 0. -/
theorem c9_seq_char (t : Nat) (ht : t < 10000) :
    caseSeq ("S25" ++ padNum 4 (1 + t)) = if t = 9999 then 0 else 1 + t := by
  by_cases h9 : t = 9999
  · subst h9
    decide
  · rw [if_neg h9]
    exact caseSeq_pad "S25" (by omega) (by omega)

/-- All records of the batch share the inquiry date, whatever case
number they carry. -/
theorem c9_date_eq (i j : Nat) (v w : String) :
    reassignDate { c9Mk i with caseNumber := v } =
      reassignDate { c9Mk j with caseNumber := w } := rfl

/-- The `caseNumber` projection of an updated batch record. -/
theorem c9_cn_proj (i : Nat) (v : String) :
    ({ c9Mk i with caseNumber := v } : Customer).caseNumber = v := rfl

/-- Claim C9, counterexample: on a 10000-record partition the pass is
not idempotent.  The first pass numbers the batch `0001 … 9999, 10000`;
the second pass sorts the record suffixed `"10000"` (sequence value 0)
to the front, so the record that held the id `"09999"` now comes first
and receives `"S250001"`, while a single pass gives that number to the
id `"00000"`. -/
theorem C9_counterexample :
    reassignCaseNumbers "sell" 2025 (reassignCaseNumbers "sell" 2025 c9List) ≠
      reassignCaseNumbers "sell" 2025 c9List := by
  have htrans : ∀ a b c : Customer, reassignKeyLE a b = true → reassignKeyLE b c = true →
      reassignKeyLE a c = true := fun a b c h1 h2 => reassignKeyLE_trans h1 h2
  have htot : ∀ a b : Customer, reassignKeyLE a b = false → reassignKeyLE b a = true :=
    fun a b h1 => reassignKeyLE_tot h1
  have hp : categoryPfx "sell" ++ yearShort 2025 = "S25" := by decide
  have e1 : reassignCaseNumbers "sell" 2025 c9List = c9NumBuild "S25" 0 1 10000 := by
    unfold reassignCaseNumbers
    rw [show c9List = c9Build 0 10000 from rfl, if_neg (by decide), hp,
      sortS_of_pairwise (c9Build_pairwise 10000 0), numberFrom_c9Build "S25" 10000 0 1]
  have hsplit := c9NumBuild_snoc "S25" 9999 0 1
  rw [show (9999 : Nat) + 1 = 10000 from by norm_num,
    show (0 : Nat) + 9999 = 9999 from by norm_num] at hsplit
  have hpermT : (c9NumBuild "S25" 0 1 10000).Perm
      ({ c9Mk 9999 with caseNumber := "S25" ++ padNum 4 10000 } ::
        c9NumBuild "S25" 0 1 9999) := by
    rw [hsplit]
    exact List.perm_append_singleton _ _
  have hApair : (c9NumBuild "S25" 0 1 9999).Pairwise
      (fun a b => reassignKeyLE a b = true) := by
    rw [← numberFrom_c9Build "S25" 9999 0 1]
    refine numberFrom_pairwise "S25" (c9Build 0 9999) 1 (le_refl 1) ?_
      (c9Build_pairwise 9999 0)
    rw [c9Build_length 9999 0]
  have hTpair : ({ c9Mk 9999 with caseNumber := "S25" ++ padNum 4 10000 } ::
      c9NumBuild "S25" 0 1 9999).Pairwise (fun a b => reassignKeyLE a b = true) := by
    refine List.pairwise_cons.mpr ⟨?_, hApair⟩
    intro z hz
    rcases c9NumBuild_mem "S25" 9999 0 1 z hz with ⟨t, htn, rfl⟩
    refine reassignKeyLE_of_seq_lt
      (c9_date_eq 9999 (0 + t) ("S25" ++ padNum 4 10000) ("S25" ++ padNum 4 (1 + t))) ?_
    rw [c9_cn_proj, c9_cn_proj, show caseSeq ("S25" ++ padNum 4 10000) = 0 from by decide,
      @caseSeq_pad "S25" (1 + t) (by omega) (by omega)]
    omega
  have hsorted : sortS reassignKeyLE (c9NumBuild "S25" 0 1 10000) =
      { c9Mk 9999 with caseNumber := "S25" ++ padNum 4 10000 } ::
        c9NumBuild "S25" 0 1 9999 := by
    refine eq_of_perm_of_pairwise ((sortS_perm reassignKeyLE _).trans hpermT)
      (sortS_pairwise htrans htot _) hTpair ?_
    intro a ha b hb hab hba
    have ha' : a ∈ c9NumBuild "S25" 0 1 10000 :=
      (sortS_perm reassignKeyLE _).mem_iff.mp ha
    have hb' : b ∈ c9NumBuild "S25" 0 1 10000 :=
      (sortS_perm reassignKeyLE _).mem_iff.mp hb
    rcases c9NumBuild_mem "S25" 10000 0 1 a ha' with ⟨t, htn, rfl⟩
    rcases c9NumBuild_mem "S25" 10000 0 1 b hb' with ⟨u, hun, rfl⟩
    have h1 := reassignKeyLE_seq_le
      (c9_date_eq (0 + t) (0 + u) ("S25" ++ padNum 4 (1 + t)) ("S25" ++ padNum 4 (1 + u))) hab
    have h2 := reassignKeyLE_seq_le
      (c9_date_eq (0 + u) (0 + t) ("S25" ++ padNum 4 (1 + u)) ("S25" ++ padNum 4 (1 + t))) hba
    rw [c9_cn_proj, c9_cn_proj, c9_seq_char t htn, c9_seq_char u hun] at h1 h2
    have htu : t = u := by
      split_ifs at h1 h2 <;> omega
    subst htu
    rfl
  have e2 : reassignCaseNumbers "sell" 2025 (c9NumBuild "S25" 0 1 10000) =
      numberFrom "S25" 1 ({ c9Mk 9999 with caseNumber := "S25" ++ padNum 4 10000 } ::
        c9NumBuild "S25" 0 1 9999) := by
    unfold reassignCaseNumbers
    rw [if_neg (by decide), hp, hsorted]
  rw [e1, e2]
  intro hcontra
  have hhead : (numberFrom "S25" 1 ({ c9Mk 9999 with
        caseNumber := "S25" ++ padNum 4 10000 } :: c9NumBuild "S25" 0 1 9999)).head? =
      (c9NumBuild "S25" 0 1 10000).head? := by
    rw [hcontra]
  have hL : (numberFrom "S25" 1 ({ c9Mk 9999 with
        caseNumber := "S25" ++ padNum 4 10000 } :: c9NumBuild "S25" 0 1 9999)).head? =
      some { { c9Mk 9999 with caseNumber := "S25" ++ padNum 4 10000 } with
        caseNumber := "S25" ++ padNum 4 1 } := rfl
  have hR : (c9NumBuild "S25" 0 1 10000).head? =
      some { c9Mk 0 with caseNumber := "S25" ++ padNum 4 1 } := rfl
  rw [hL, hR] at hhead
  exact absurd hhead (by decide)

/-! ## C3: annual override and month sums in `build_yearly_progress` -/

/-- Read a per-staff counter out of a staff dict (zeros when absent). -/
def staffGet (l : List (String × StaffCnt)) (name : String) : StaffCnt :=
  (alookup l name).getD zeroStaffCnt

/-- Componentwise sum of two per-staff counters. -/
def addSC (a b : StaffCnt) : StaffCnt :=
  ⟨a.signed + b.signed, a.canceled + b.canceled, a.net + b.net⟩

/-- The month entry of the monthly-progress document a month key denotes
(zeros when the key is absent). -/
def monthProgOf (mp : List (String × Progress)) (mk : String) : Progress :=
  (alookup mp mk).getD zeroProgress

/-- The year entry's progress counters — totals and the per-staff
breakdown — are the sums, over the entry's month list, of the monthly
progress document's entries. -/
def ProgSum (mp : List (String × Progress)) (e : YearEntry) : Prop :=
  e.progress.signed = (e.months.map fun mk => (monthProgOf mp mk).signed).sum ∧
  e.progress.canceled = (e.months.map fun mk => (monthProgOf mp mk).canceled).sum ∧
  e.progress.net = (e.months.map fun mk => (monthProgOf mp mk).net).sum ∧
  ∀ name : String, staffGet e.progress.staff name =
    ⟨(e.months.map fun mk => (staffGet (monthProgOf mp mk).staff name).signed).sum,
     (e.months.map fun mk => (staffGet (monthProgOf mp mk).staff name).canceled).sum,
     (e.months.map fun mk => (staffGet (monthProgOf mp mk).staff name).net).sum⟩

theorem alookup_cons {α : Type} (k : String) (v : α) (t : List (String × α)) (key : String) :
    alookup ((k, v) :: t) key = if k = key then some v else alookup t key := rfl

theorem alookup_mem {α : Type} :
    ∀ (l : List (String × α)) (y : String) (v : α), alookup l y = some v → (y, v) ∈ l := by
  intro l
  induction l with
  | nil =>
    intro y v h
    simp [alookup] at h
  | cons kv t ih =>
    intro y v h
    obtain ⟨k, w⟩ := kv
    rw [alookup_cons] at h
    by_cases hk : k = y
    · rw [if_pos hk] at h
      obtain rfl := Option.some_inj.mp h
      subst hk
      exact List.mem_cons_self _ _
    · rw [if_neg hk] at h
      exact List.mem_cons_of_mem _ (ih y v h)

theorem alookup_append {α : Type} :
    ∀ (a b : List (String × α)) (y : String),
      alookup (a ++ b) y =
        match alookup a y with
        | some v => some v
        | Option.none => alookup b y := by
  intro a
  induction a with
  | nil =>
    intro b y
    rfl
  | cons kv t ih =>
    intro b y
    obtain ⟨k, w⟩ := kv
    show alookup ((k, w) :: (t ++ b)) y = _
    rw [alookup_cons, alookup_cons]
    by_cases hk : k = y
    · rw [if_pos hk, if_pos hk]
    · rw [if_neg hk, if_neg hk]
      exact ih b y

theorem staffGet_cons (k : String) (c : StaffCnt) (t : List (String × StaffCnt))
    (name : String) :
    staffGet ((k, c) :: t) name = if k = name then c else staffGet t name := by
  unfold staffGet
  rw [alookup_cons]
  by_cases h : k = name
  · rw [if_pos h, if_pos h]
    rfl
  · rw [if_neg h, if_neg h]

theorem staffGet_nil (name : String) : staffGet [] name = zeroStaffCnt := rfl

theorem addSC_zero_left (b : StaffCnt) : addSC zeroStaffCnt b = b := by
  cases b
  simp [addSC, zeroStaffCnt]

theorem addSC_zero_right (a : StaffCnt) : addSC a zeroStaffCnt = a := by
  cases a
  simp [addSC, zeroStaffCnt]

theorem staffGet_staffAdd (n : String) (sd : StaffCnt) :
    ∀ (l : List (String × StaffCnt)) (name : String),
      staffGet (staffAdd n sd l) name =
        if n = name then addSC (staffGet l name) sd else staffGet l name := by
  intro l
  induction l with
  | nil =>
    intro name
    show staffGet [(n, ⟨sd.signed, sd.canceled, sd.net⟩)] name = _
    rw [staffGet_cons]
    by_cases h : n = name
    · rw [if_pos h, if_pos h, staffGet_nil, addSC_zero_left]
    · rw [if_neg h, if_neg h, staffGet_nil]
  | cons kv t ih =>
    intro name
    obtain ⟨k, c⟩ := kv
    rw [show staffAdd n sd ((k, c) :: t) =
      if k = n then (k, ⟨c.signed + sd.signed, c.canceled + sd.canceled, c.net + sd.net⟩) :: t
      else (k, c) :: staffAdd n sd t from rfl]
    by_cases hk : k = n
    · subst hk
      rw [if_pos rfl, staffGet_cons, staffGet_cons]
      by_cases hn : k = name
      · rw [if_pos hn, if_pos hn, if_pos hn]
        cases c
        rfl
      · rw [if_neg hn, if_neg hn, if_neg hn]
    · rw [if_neg hk, staffGet_cons, staffGet_cons, ih name]
      by_cases hn : k = name
      · have hnn : ¬ n = name := fun h => hk (hn.trans h.symm)
        rw [if_pos hn, if_pos hn, if_neg hnn]
      · rw [if_neg hn, if_neg hn]

theorem alookup_eq_none_of_not_mem {α : Type} :
    ∀ (l : List (String × α)) (y : String), y ∉ l.map (fun x => x.1) →
      alookup l y = Option.none := by
  intro l
  induction l with
  | nil =>
    intro y _
    rfl
  | cons kv t ih =>
    intro y hy
    obtain ⟨k, w⟩ := kv
    simp only [List.map_cons, List.mem_cons] at hy
    push_neg at hy
    rw [alookup_cons, if_neg (fun h => hy.1 h.symm)]
    exact ih y hy.2

theorem staffGet_mergeStaff :
    ∀ (ms acc : List (String × StaffCnt)), (ms.map (fun x => x.1)).Nodup →
      ∀ name, staffGet (mergeStaff acc ms) name =
        addSC (staffGet acc name) (staffGet ms name) := by
  intro ms
  induction ms with
  | nil =>
    intro acc _ name
    rw [show mergeStaff acc [] = acc from rfl, staffGet_nil, addSC_zero_right]
  | cons kv t ih =>
    intro acc hnd name
    obtain ⟨n, sd⟩ := kv
    simp only [List.map_cons, List.nodup_cons] at hnd
    rw [show mergeStaff acc ((n, sd) :: t) = mergeStaff (staffAdd n sd acc) t from rfl,
      ih (staffAdd n sd acc) hnd.2 name, staffGet_staffAdd, staffGet_cons]
    by_cases hn : n = name
    · rw [if_pos hn, if_pos hn]
      have hnt : staffGet t name = zeroStaffCnt := by
        unfold staffGet
        rw [alookup_eq_none_of_not_mem t name (by rw [← hn]; exact hnd.1)]
        rfl
      rw [hnt, addSC_zero_right]
    · rw [if_neg hn, if_neg hn]

theorem dedupKeysGo_props :
    ∀ (l seen : List String),
      (dedupKeysGo seen l).Nodup ∧ ∀ k ∈ dedupKeysGo seen l, k ∉ seen := by
  intro l
  induction l with
  | nil =>
    intro seen
    exact ⟨List.nodup_nil, by simp [dedupKeysGo]⟩
  | cons k t ih =>
    intro seen
    rw [show dedupKeysGo seen (k :: t) =
      if k ∈ seen then dedupKeysGo seen t else k :: dedupKeysGo (k :: seen) t from rfl]
    by_cases hk : k ∈ seen
    · rw [if_pos hk]
      exact ih seen
    · rw [if_neg hk]
      rcases ih (k :: seen) with ⟨hnd, hout⟩
      refine ⟨List.nodup_cons.mpr ⟨?_, hnd⟩, ?_⟩
      · intro hmem
        exact hout k hmem (List.mem_cons_self _ _)
      · intro z hz
        rcases List.mem_cons.mp hz with rfl | hz
        · exact hk
        · exact fun hzs => hout z hz (List.mem_cons_of_mem _ hzs)

theorem dedupKeys_nodup (l : List String) : (dedupKeys l).Nodup :=
  (dedupKeysGo_props l []).1

theorem alookup_yearUpsert (y : String) (f : YearEntry → YearEntry) :
    ∀ (l : List (String × YearEntry)) (z : String),
      alookup (yearUpsert y f l) z =
        if y = z then some (f ((alookup l y).getD freshYearEntry)) else alookup l z := by
  intro l
  induction l with
  | nil =>
    intro z
    rw [show yearUpsert y f [] = [(y, f freshYearEntry)] from rfl, alookup_cons]
    by_cases hz : y = z
    · rw [if_pos hz, if_pos hz]
      rfl
    · rw [if_neg hz, if_neg hz]
  | cons kv t ih =>
    intro z
    obtain ⟨k, e⟩ := kv
    rw [show yearUpsert y f ((k, e) :: t) =
      if k = y then (k, f e) :: t else (k, e) :: yearUpsert y f t from rfl]
    by_cases hk : k = y
    · subst hk
      rw [if_pos rfl, alookup_cons, alookup_cons, alookup_cons, if_pos rfl]
      by_cases hz : k = z
      · rw [if_pos hz, if_pos hz]
        rfl
      · rw [if_neg hz, if_neg hz, if_neg hz]
    · rw [if_neg hk, alookup_cons, alookup_cons, alookup_cons, if_neg hk, ih z]
      by_cases hz : k = z
      · have hyz : ¬ y = z := fun h => hk (hz.trans h.symm)
        rw [if_pos hz, if_pos hz, if_neg hyz]
      · rw [if_neg hz, if_neg hz]

theorem alookup_map_finishYear (goals : GoalsDoc) :
    ∀ (l : List (String × YearEntry)) (y : String) (e : YearEntry),
      alookup (l.map (finishYear goals)) y = some e →
      ∃ e0, alookup l y = some e0 ∧ (y, e) = finishYear goals (y, e0) := by
  intro l
  induction l with
  | nil =>
    intro y e he
    simp [alookup] at he
  | cons kv t ih =>
    intro y e he
    obtain ⟨k, e1⟩ := kv
    rw [List.map_cons] at he
    have hkey : finishYear goals (k, e1) =
        (k, (finishYear goals (k, e1)).2) := by
      unfold finishYear
      dsimp only
      cases getGoalForYearNoFallback goals k <;> rfl
    rw [hkey, alookup_cons] at he
    by_cases hk : k = y
    · subst hk
      rw [if_pos rfl] at he
      obtain rfl := Option.some_inj.mp he
      refine ⟨e1, by rw [alookup_cons, if_pos rfl], ?_⟩
      rw [hkey]
    · rw [if_neg hk] at he
      rcases ih y e he with ⟨e0, h1, h2⟩
      refine ⟨e0, ?_, h2⟩
      rw [alookup_cons, if_neg hk]
      exact h1

theorem ProgSum_fresh (mp : List (String × Progress)) : ProgSum mp freshYearEntry :=
  ⟨rfl, rfl, rfl, fun _ => rfl⟩

theorem seedAnnual_fresh :
    ∀ (l : List (String × Goal)) (acc : List (String × YearEntry)),
      (∀ y e, alookup acc y = some e → e = freshYearEntry) →
      ∀ y e, alookup (l.foldl (fun acc kv =>
          if kv.1 ≠ "" ∧ ¬ kv.1.toList.contains '-' then
            (if (alookup acc kv.1).isSome then acc else acc ++ [(kv.1, freshYearEntry)])
          else acc) acc) y = some e → e = freshYearEntry := by
  intro l
  induction l with
  | nil =>
    intro acc hacc y e he
    exact hacc y e he
  | cons kv t ih =>
    intro acc hacc y e he
    rw [List.foldl_cons] at he
    refine ih _ ?_ y e he
    intro y' e' he'
    by_cases h1 : kv.1 ≠ "" ∧ ¬ kv.1.toList.contains '-' = true
    · rw [if_pos h1] at he'
      by_cases h2 : (alookup acc kv.1).isSome = true
      · rw [if_pos h2] at he'
        exact hacc y' e' he'
      · rw [if_neg h2] at he'
        rw [alookup_append] at he'
        cases hl : alookup acc y' with
        | some v =>
          rw [hl] at he'
          exact hacc y' e' (by rw [hl, ← he'])
        | none =>
          rw [hl] at he'
          dsimp only at he'
          rw [alookup_cons] at he'
          by_cases hk : kv.1 = y'
          · rw [if_pos hk] at he'
            exact (Option.some_inj.mp he').symm
          · rw [if_neg hk] at he'
            simp [alookup] at he'
    · rw [if_neg h1] at he'
      exact hacc y' e' he'

theorem monthProgOf_wf (mp : List (String × Progress))
    (hwf : ∀ kv ∈ mp, (kv.2.staff.map (fun x => x.1)).Nodup) (mk : String) :
    ((monthProgOf mp mk).staff.map (fun x => x.1)).Nodup := by
  unfold monthProgOf
  cases halk : alookup mp mk with
  | none => exact List.nodup_nil
  | some p =>
    rw [Option.getD_some]
    exact hwf (mk, p) (alookup_mem mp mk p halk)

/-- Merging one month (not yet counted) into a year entry preserves the
month-sum property. -/
theorem ProgSum_step (mp : List (String × Progress)) (goals : GoalsDoc) (mk : String)
    (e : YearEntry)
    (hwfm : ((monthProgOf mp mk).staff.map (fun x => x.1)).Nodup)
    (hps : ProgSum mp e) :
    ProgSum mp
      { months := e.months ++ [mk]
        goal := goalAccum e.goal (getGoalForMonth goals mk)
        monthlyTargetTotal := e.monthlyTargetTotal + (getGoalForMonth goals mk).storeTarget
        progress := addProgress e.progress (monthProgOf mp mk) } := by
  obtain ⟨h1, h2, h3, h4⟩ := hps
  refine ⟨?_, ?_, ?_, ?_⟩
  · show e.progress.signed + (monthProgOf mp mk).signed =
      ((e.months ++ [mk]).map fun mk' => (monthProgOf mp mk').signed).sum
    rw [List.map_append, List.sum_append, h1]
    simp
  · show e.progress.canceled + (monthProgOf mp mk).canceled =
      ((e.months ++ [mk]).map fun mk' => (monthProgOf mp mk').canceled).sum
    rw [List.map_append, List.sum_append, h2]
    simp
  · show e.progress.net + (monthProgOf mp mk).net =
      ((e.months ++ [mk]).map fun mk' => (monthProgOf mp mk').net).sum
    rw [List.map_append, List.sum_append, h3]
    simp
  · intro name
    show staffGet (mergeStaff e.progress.staff (monthProgOf mp mk).staff) name = _
    rw [staffGet_mergeStaff _ _ hwfm name, h4 name]
    simp [addSC, List.map_append, List.sum_append]

/-- Invariant of the month loop of `build_yearly_progress`: looked-up
year entries sum their month lists, provided entries never hold a month
still to be iterated. -/
theorem monthFold_inv (mp : List (String × Progress)) (goals : GoalsDoc)
    (hwf : ∀ kv ∈ mp, (kv.2.staff.map (fun x => x.1)).Nodup) :
    ∀ (ks : List String), ks.Nodup → ∀ (acc : List (String × YearEntry)),
      (∀ y e, alookup acc y = some e → ProgSum mp e ∧ ∀ k ∈ e.months, k ∉ ks) →
      ∀ y e, alookup (ks.foldl (monthStep mp goals) acc) y = some e → ProgSum mp e := by
  intro ks
  induction ks with
  | nil =>
    intro _ acc hinv y e he
    exact (hinv y e he).1
  | cons mk rest ih =>
    intro hnd acc hinv y e he
    rw [List.foldl_cons] at he
    rcases List.nodup_cons.mp hnd with ⟨hmk, hndr⟩
    refine ih hndr (monthStep mp goals acc mk) ?_ y e he
    intro z e' he'
    unfold monthStep at he'
    by_cases hskip : mk = "" ∨ ¬ mk.toList.contains '-' = true
    · rw [if_pos hskip] at he'
      rcases hinv z e' he' with ⟨hp, hm⟩
      exact ⟨hp, fun k hk hkr => hm k hk (List.mem_cons_of_mem _ hkr)⟩
    · rw [if_neg hskip] at he'
      simp only [alookup_yearUpsert] at he'
      by_cases hz : yearOf mk = z
      · rw [if_pos hz] at he'
        obtain rfl := (Option.some_inj.mp he').symm
        cases halk : alookup acc (yearOf mk) with
        | none =>
          rw [Option.getD_none,
            if_neg (show ¬ mk ∈ freshYearEntry.months by simp [freshYearEntry])]
          refine ⟨ProgSum_step mp goals mk freshYearEntry
            (monthProgOf_wf mp hwf mk) (ProgSum_fresh mp), ?_⟩
          intro k hk hkr
          rcases List.mem_append.mp hk with hk | hk
          · exact absurd hk (by simp [freshYearEntry])
          · obtain rfl := List.mem_singleton.mp hk
            exact hmk hkr
        | some e0 =>
          rcases hinv (yearOf mk) e0 halk with ⟨hp0, hm0⟩
          have hmem : ¬ mk ∈ e0.months := fun hmem => hm0 mk hmem (List.mem_cons_self _ _)
          rw [Option.getD_some, if_neg hmem]
          refine ⟨ProgSum_step mp goals mk e0 (monthProgOf_wf mp hwf mk) hp0, ?_⟩
          intro k hk hkr
          rcases List.mem_append.mp hk with hk | hk
          · exact hm0 k hk (List.mem_cons_of_mem _ hkr)
          · obtain rfl := List.mem_singleton.mp hk
            exact hmk hkr
      · rw [if_neg hz] at he'
        rcases hinv z e' he' with ⟨hp, hm⟩
        exact ⟨hp, fun k hk hkr => hm k hk (List.mem_cons_of_mem _ hkr)⟩

/-- Sorting the month list (and overriding the goal and target-total
fields) preserves the month-sum property: the sums are invariant under
the permutation. -/
theorem ProgSum_sortMonths (mp : List (String × Progress)) (e0 : YearEntry) (g : Goal)
    (mtt : Int) (hps : ProgSum mp e0) :
    ProgSum mp { months := sortS strLE e0.months, goal := g, monthlyTargetTotal := mtt,
                 progress := e0.progress } := by
  obtain ⟨h1, h2, h3, h4⟩ := hps
  have hperm := sortS_perm strLE e0.months
  refine ⟨?_, ?_, ?_, ?_⟩
  · show e0.progress.signed =
      ((sortS strLE e0.months).map fun mk => (monthProgOf mp mk).signed).sum
    rw [h1]
    exact ((hperm.map _).sum_eq).symm
  · show e0.progress.canceled =
      ((sortS strLE e0.months).map fun mk => (monthProgOf mp mk).canceled).sum
    rw [h2]
    exact ((hperm.map _).sum_eq).symm
  · show e0.progress.net =
      ((sortS strLE e0.months).map fun mk => (monthProgOf mp mk).net).sum
    rw [h3]
    exact ((hperm.map _).sum_eq).symm
  · intro name
    show staffGet e0.progress.staff name = _
    rw [h4 name, (hperm.map _).sum_eq, (hperm.map _).sum_eq, (hperm.map _).sum_eq]

/-- Claim C3 (confirmed): in `build_yearly_progress`, every returned year
entry with an explicitly set annual goal (found without the default
fallback) carries exactly that goal — the override replaces the summed
monthly goals — and, override or not, its progress counters (`signed`,
`canceled`, `net`, and the per-staff breakdown) are the sums, over the
entry's constituent month keys, of the monthly-progress entries.  The
staff dicts of the monthly document have unique keys, as Python dicts
do. -/
theorem C3_yearly_override_and_sums (mp : List (String × Progress)) (goals : GoalsDoc)
    (hwf : ∀ kv ∈ mp, (kv.2.staff.map (fun x => x.1)).Nodup)
    (y : String) (e : YearEntry)
    (he : alookup (buildYearlyProgress mp goals) y = some e) :
    (∀ g, alookup goals.annual y = some g → e.goal = g) ∧ ProgSum mp e := by
  unfold buildYearlyProgress at he
  rcases alookup_map_finishYear goals _ y e he with ⟨e0, he0, hfin⟩
  have hps0 : ProgSum mp e0 := by
    refine monthFold_inv mp goals hwf (allMonthKeys mp goals) (dedupKeys_nodup _)
      (seedAnnual goals.annual) ?_ y e0 he0
    intro y' e' he'
    have hfresh : e' = freshYearEntry := by
      unfold seedAnnual at he'
      exact seedAnnual_fresh goals.annual [] (fun y'' e'' h => by simp [alookup] at h) y' e' he'
    subst hfresh
    exact ⟨ProgSum_fresh mp, by simp [freshYearEntry]⟩
  unfold finishYear at hfin
  dsimp only at hfin
  rw [show getGoalForYearNoFallback goals y = alookup goals.annual y from rfl] at hfin
  cases hg : alookup goals.annual y with
  | some g =>
    rw [hg] at hfin
    dsimp only at hfin
    have he2 := congrArg Prod.snd hfin
    dsimp only at he2
    subst he2
    constructor
    · intro g' hg'
      obtain rfl := Option.some_inj.mp hg'
      rfl
    · exact ProgSum_sortMonths mp e0 g e0.monthlyTargetTotal hps0
  | none =>
    rw [hg] at hfin
    dsimp only at hfin
    have he2 := congrArg Prod.snd hfin
    dsimp only at he2
    subst he2
    constructor
    · intro g' hg'
      exact absurd hg' (by simp)
    · exact ProgSum_sortMonths mp e0 e0.goal e0.monthlyTargetTotal hps0

/-- A one-month, one-staff monthly-progress document for the witness. -/
def c3Mp : List (String × Progress) := [("2025-04", ⟨1, 0, 1, [("Tanaka", ⟨1, 0, 1⟩)]⟩)]

/-- A goals document with an explicit annual goal for 2025. -/
def c3Goals : GoalsDoc := ⟨zeroGoal, [], [("2025", ⟨100, [], []⟩)]⟩

/-- The year entry `build_yearly_progress` produces for 2025 on the
witness inputs. -/
def c3Entry : YearEntry :=
  ⟨["2025-04"], ⟨100, [], []⟩, 0, ⟨1, 0, 1, [("Tanaka", ⟨1, 0, 1⟩)]⟩⟩

/-- Witness: the override-and-sums theorem applied to the concrete
one-month document with an annual override. -/
theorem C3_yearly_override_and_sums_witness :
    (∀ kv ∈ c3Mp, (kv.2.staff.map (fun x => x.1)).Nodup) ∧
      alookup (buildYearlyProgress c3Mp c3Goals) "2025" = some c3Entry ∧
      ((∀ g, alookup c3Goals.annual "2025" = some g → c3Entry.goal = g) ∧
        ProgSum c3Mp c3Entry) :=
  ⟨by decide, by decide,
    C3_yearly_override_and_sums c3Mp c3Goals (by decide) "2025" c3Entry (by decide)⟩

end Estate
